import Mathlib

/-!
Verification of the FACTORS scoring-and-selection core.

The Python sources (src/factors/score.py, effects.py, pci.py, bootstrap.py,
optimizer.py) are shallowly embedded below.  Floating-point cell values are
modelled as `Option ℚ`: `none` stands for IEEE NaN (the pandas missing-data
marker), `some q` for a finite float.  Arithmetic on these values propagates
`none`, matching IEEE NaN propagation; comparisons against NaN are `False`,
matching IEEE semantics, which is reflected wherever the source compares a
possibly-NaN quantity.  Python's stable `sorted` is modelled by
`List.insertionSort`, which is also stable; two stable sorts of the same list
under the same total preorder produce identical output.
-/

namespace Factors

/-- A float-valued quantity that may be NaN: `none` models NaN/missing. -/
abbrev FVal := Option ℚ

/-- IEEE addition lifted to NaN-able values: NaN propagates. -/
def fadd : FVal → FVal → FVal
  | some x, some y => some (x + y)
  | _, _ => none

/-- IEEE subtraction lifted to NaN-able values: NaN propagates. -/
def fsub : FVal → FVal → FVal
  | some x, some y => some (x - y)
  | _, _ => none

/-- Multiplication by a finite scalar: `k * NaN = NaN` (also for `k = 0`),
matching IEEE floats. -/
def fscale (k : ℚ) : FVal → FVal
  | some x => some (k * x)
  | none => none

/-- A pandas DataFrame of cell-level quantities: row labels (levels of factor
A), column labels (levels of factor B) and a NaN-able value per cell.  The
entry function is total; only values at `rows × cols` are ever read. -/
structure Table (A B : Type) where
  rows : List A
  cols : List B
  entry : A → B → FVal

variable {A B : Type}

/-- The values of a row, in column order (`cell_means.loc[a, :]`). -/
def Table.rowVals (t : Table A B) (a : A) : List FVal :=
  t.cols.map fun b => t.entry a b

/-- The values of a column, in row order. -/
def Table.colVals (t : Table A B) (b : B) : List FVal :=
  t.rows.map fun a => t.entry a b

/-- All values of the table in row-major order (`df.values.ravel()`). -/
def Table.allVals (t : Table A B) : List FVal :=
  t.rows.flatMap fun a => t.rowVals a

/-- All cells of the table in row-major order. -/
def Table.cells (t : Table A B) : List (A × B) :=
  t.rows.flatMap fun a => t.cols.map fun b => (a, b)

/-- pandas `DataFrame.reindex(index=rows, columns=cols)`: labels present in
the original index keep their value, fresh labels get NaN. -/
def Table.reindex [DecidableEq A] [DecidableEq B] (t : Table A B)
    (rows : List A) (cols : List B) : Table A B :=
  ⟨rows, cols, fun a b => if a ∈ t.rows ∧ b ∈ t.cols then t.entry a b else none⟩

/-- pandas `DataFrame.fillna(v)`. -/
def Table.fillna (t : Table A B) (v : ℚ) : Table A B :=
  ⟨t.rows, t.cols, fun a b => some ((t.entry a b).getD v)⟩

/-- `np.nanmax` over a list of NaN-able values: the maximum of the non-NaN
entries, NaN when every entry is NaN (numpy emits a RuntimeWarning and
returns NaN in that case, not an exception). -/
def nanmaxStep : FVal → FVal → FVal
  | none, v => v
  | acc, none => acc
  | some m, some x => some (max m x)

def nanmax (l : List FVal) : FVal :=
  l.foldl nanmaxStep none

/-- The value `maxc` computed by `normalize_costs`:
`float(np.nanmax(cm.values)) if cm.size > 0 else 0.0`. -/
def maxCost (t : Table A B) : FVal :=
  if t.allVals = [] then some 0 else nanmax t.allVals

/-- Embedding of `score.normalize_costs`.  When `maxc <= eps` (false when
`maxc` is NaN, as for float comparisons) the source returns `cm.fillna(0.0)`;
otherwise it returns `cm / maxc`, where division by NaN or of NaN yields
NaN. -/
def normalize_costs (costs : Table A B) (eps : ℚ) : Table A B :=
  match maxCost costs with
  | none => ⟨costs.rows, costs.cols, fun _ _ => none⟩
  | some m =>
    if m ≤ eps then costs.fillna 0
    else ⟨costs.rows, costs.cols, fun a b => (costs.entry a b).map fun x => x / m⟩

/-- The uncertainty table actually combined by `compute_risk_adjusted_score`:
`pd.DataFrame(0.0, ...)` when omitted, else
`uncertainty.reindex(...).fillna(0.0)`. -/
def alignedUncertainty [DecidableEq A] [DecidableEq B] (means : Table A B)
    (uncertainty : Option (Table A B)) : Table A B :=
  match uncertainty with
  | none => ⟨means.rows, means.cols, fun _ _ => some 0⟩
  | some u => (u.reindex means.rows means.cols).fillna 0

/-- The cost table actually combined by `compute_risk_adjusted_score`:
`pd.DataFrame(0.0, ...)` when omitted, else the reindexed cost, normalized
when the flag is set (the source calls `normalize_costs` with its default
`eps = 1e-9`).  Note the source applies no `fillna` to the cost. -/
def alignedCostNorm [DecidableEq A] [DecidableEq B] (means : Table A B)
    (cost : Option (Table A B)) (normalize_costs_flag : Bool) : Table A B :=
  match cost with
  | none => ⟨means.rows, means.cols, fun _ _ => some 0⟩
  | some c =>
    let c2 := c.reindex means.rows means.cols
    if normalize_costs_flag then normalize_costs c2 (1 / 1000000000) else c2

/-- Embedding of `score.compute_risk_adjusted_score`:
`score = means - kappa * uncertainty - rho * cost_norm`, evaluated with IEEE
NaN propagation. -/
def compute_risk_adjusted_score [DecidableEq A] [DecidableEq B]
    (cell_means : Table A B) (uncertainty cost : Option (Table A B))
    (kappa rho : ℚ) (normalize_costs_flag : Bool) : Table A B :=
  ⟨cell_means.rows, cell_means.cols, fun a b =>
    fsub
      (fsub (cell_means.entry a b)
        (fscale kappa ((alignedUncertainty cell_means uncertainty).entry a b)))
      (fscale rho ((alignedCostNorm cell_means cost normalize_costs_flag).entry a b))⟩

/-- Mean of the non-NaN entries of a list, NaN when there are none: this is
the skip-NaN mean used by `pandas.DataFrame.mean` and by
`values[~np.isnan(values)].mean()` / `np.nanmean` in effects.py and pci.py. -/
def fmeanList (l : List FVal) : FVal :=
  let xs := l.filterMap id
  if xs.length = 0 then none else some (xs.sum / (xs.length : ℚ))

/-- Embedding of `effects.two_factor_interaction_matrix` (with the only
supported centering, `effect_center="overall"`): at a non-missing cell the
entry is `m_ij - row_mean_i - col_mean_j + overall_mean`; missing cells stay
NaN. -/
def two_factor_interaction_matrix (t : Table A B) : Table A B :=
  ⟨t.rows, t.cols, fun a b =>
    match t.entry a b with
    | none => none
    | some m =>
      fadd (fsub (fsub (some m) (fmeanList (t.rowVals a))) (fmeanList (t.colVals b)))
        (fmeanList t.allVals)⟩

/-- Embedding of `pci.interaction_matrix_from_cell_means`, whose body computes
the same residuals as `effects.two_factor_interaction_matrix` (its overall
mean is `np.nanmean`, which coincides with the skip-NaN mean). -/
def interaction_matrix_from_cell_means (t : Table A B) : Table A B :=
  ⟨t.rows, t.cols, fun a b =>
    match t.entry a b with
    | none => none
    | some m =>
      fadd (fsub (fsub (some m) (fmeanList (t.rowVals a))) (fmeanList (t.colVals b)))
        (fmeanList t.allVals)⟩

/-- Sum of a table's entries over all non-missing cells. -/
def obsSum (t : Table A B) : ℚ :=
  (t.allVals.filterMap id).sum

/-! ### bootstrap.py -/

variable {K : Type}

/-- Embedding of `bootstrap.bootstrap_cell_statistics` over an explicit
grouped representation: `groups` lists, in groupby order, each observed group
key with that group's raw (possibly NaN) outcome values.  `rng g i j` models
the `j`-th index drawn by `rng.integers(0, n, size=n)` for replicate `i` of
the `g`-th group (reduced `% n` to model the generator's range).  A group
whose values are all NaN has `arr.size == 0` after `dropna` and receives
`np.full(n_boot, np.nan)`. -/
def bootstrapCellStatisticsAux (stat : List ℚ → ℚ) (n_boot : ℕ)
    (rng : ℕ → ℕ → ℕ → ℕ) : List (K × List FVal) → ℕ → List (K × List FVal)
  | [], _ => []
  | (k, series) :: rest, g =>
    (let arr := series.filterMap id
     let n := arr.length
     if n = 0 then (k, List.replicate n_boot (none : FVal))
     else
       (k, (List.range n_boot).map fun i =>
         some (stat ((List.range n).map fun j => arr.getD (rng g i j % n) 0)))) ::
      bootstrapCellStatisticsAux stat n_boot rng rest (g + 1)

/-- Embedding of `df.groupby(list(group_cols))[value_col]` over a row-level
data frame: each row carries its group-key combination and its value-column
entry.  The group keys are the distinct key combinations actually observed
among the rows, listed in sorted order (pandas sorts group keys by default;
`le` is the key order), and each key maps to the value entries of its rows in
their original order.  A key combination that occurs in no row — even one
whose individual levels are each observed elsewhere — is NOT a key of the
result. -/
def groupby [DecidableEq K] (le : K → K → Prop) [DecidableRel le]
    (rows : List (K × FVal)) : List (K × List FVal) :=
  ((rows.map Prod.fst).dedup.insertionSort le).map fun k =>
    (k, (rows.filter fun row => decide (row.1 = k)).map Prod.snd)

/-- Embedding of `bootstrap.bootstrap_cell_statistics`: group the data
frame's rows by their key combination, then bootstrap each group in groupby
order. -/
def bootstrap_cell_statistics [DecidableEq K] (le : K → K → Prop)
    [DecidableRel le] (rows : List (K × FVal)) (stat : List ℚ → ℚ)
    (n_boot : ℕ) (rng : ℕ → ℕ → ℕ → ℕ) : List (K × List FVal) :=
  bootstrapCellStatisticsAux stat n_boot rng (groupby le rows) 0

/-- The padding width computed by `bootstrap_to_dataframe`:
`max(len(v) for v in values)` (as a fold, equal to the Python `max` whenever
the list is nonempty, the only case in which the source evaluates it). -/
def maxRepLen (boot : List (K × List FVal)) : ℕ :=
  (boot.map fun kv => kv.2.length).foldl max 0

/-- Embedding of `bootstrap.bootstrap_to_dataframe` (called, as in the
pipeline, without the optional `levels_a`/`levels_b` reindexing): each
replicate array is padded at the end with NaN up to the maximum length. -/
def bootstrap_to_dataframe (boot : List (K × List FVal)) : List (K × List FVal) :=
  if boot.isEmpty then []
  else boot.map fun kv => (kv.1, kv.2 ++ List.replicate (maxRepLen boot - kv.2.length) none)

/-- A two-row data frame observing only the diagonal cells `(0, 0)` and
`(1, 1)`: levels `0` and `1` are observed for both factors, so the cell
`(0, 1)` belongs to the observed level universe, yet no row carries that key
combination. -/
def rowsC6 : List ((ℕ × ℕ) × FVal) :=
  [((0, 0), some 1), ((1, 1), some 2)]

/-- The observed level universe of a keyed data frame: the cross product of
the distinct observed first-factor levels with the distinct observed
second-factor levels. -/
def levelUniverse {α β : Type} [DecidableEq α] [DecidableEq β]
    (rows : List ((α × β) × FVal)) : List (α × β) :=
  (rows.map fun r => r.1.1).dedup.flatMap fun a =>
    (rows.map fun r => r.1.2).dedup.map fun b => (a, b)

/-- Embedding of `np.percentile(xs, q)` with the default linear
interpolation: sort ascending, take position `q/100 * (n-1)`, interpolate
between the neighbouring order statistics. -/
def npPercentile (xs : List ℚ) (q : ℚ) : ℚ :=
  let s := xs.insertionSort (· ≤ ·)
  let n := s.length
  if n = 0 then 0
  else
    let pos := q * ((n : ℚ) - 1) / 100
    let i := pos.floor.toNat
    let lo := s.getD i 0
    let hi := s.getD (min (i + 1) (n - 1)) 0
    lo + (pos - (i : ℚ)) * (hi - lo)

/-- pandas `Series.quantile(q)` over one replicate row: skip NaN, then the
same linear interpolation as `np.percentile` at `100 * q`; NaN when every
replicate is NaN. -/
def pdQuantile (row : List FVal) (q : ℚ) : FVal :=
  let xs := row.filterMap id
  if xs = [] then none else some (npPercentile xs (100 * q))

/-- pandas `DataFrame.std(axis=1, ddof=1)` over one replicate row: the
Bessel-corrected sample standard deviation of the non-NaN replicates, NaN
when fewer than two are present (0/0 in floats).  The square root is
modelled by `Rat.sqrt`, which is exact on every input used in this
development (perfect squares). -/
def sampleStd (row : List FVal) : FVal :=
  let xs := row.filterMap id
  let n := xs.length
  if n ≤ 1 then none
  else some (Rat.sqrt ((xs.map fun x => (x - xs.sum / (n : ℚ)) ^ 2).sum / ((n : ℚ) - 1)))

/-- One output row of `compute_bootstrap_ci`. -/
structure CIRow where
  estimate : FVal
  se : FVal
  ci_lower : FVal
  ci_upper : FVal
deriving DecidableEq

/-- Embedding of `bootstrap.compute_bootstrap_ci`.  In the `"se"` branch the
source computes
`z = abs(np.percentile(np.random.standard_normal(100000), 100 * (1 - alpha/2)))`:
it draws from the *global, unseeded* NumPy generator; that ambient draw
vector is the explicit `ambientNormalDraws` argument here (the source
consumes 100000 draws). -/
def compute_bootstrap_ci (boot : List (K × List FVal)) (alpha : ℚ)
    (ci_method : String) (ambientNormalDraws : List ℚ) :
    Except String (List (K × CIRow)) :=
  if boot.isEmpty then Except.ok []
  else if ci_method = "percentile" then
    Except.ok (boot.map fun kv =>
      (kv.1, ⟨fmeanList kv.2, sampleStd kv.2, pdQuantile kv.2 (alpha / 2),
        pdQuantile kv.2 (1 - alpha / 2)⟩))
  else if ci_method = "se" then
    let z := |npPercentile ambientNormalDraws (100 * (1 - alpha / 2))|
    Except.ok (boot.map fun kv =>
      let est := fmeanList kv.2
      let se := sampleStd kv.2
      (kv.1, ⟨est, se, fsub est (fscale z se), fadd est (fscale z se)⟩))
  else Except.error "ci_method must be percentile or se"

/-! ### optimizer.py

Cost tables in the optimizer are modelled with plain rational entries
(`CTable`): every code path and every spec sentence about the selectors
assumes finite cell costs, and `cost.loc[a, b]` on a present label is a
finite float there.  Score tables keep the NaN-able `Table` representation,
since no-data score cells are central to the selectors' contracts. -/

/-- A cost DataFrame: finite float entries. -/
structure CTable (A B : Type) where
  rows : List A
  cols : List B
  entry : A → B → ℚ

/-- Lexicographic order on sort keys, as Python compares key tuples. -/
def lexQLe (u v : ℚ × ℚ) : Prop :=
  u.1 < v.1 ∨ (u.1 = v.1 ∧ u.2 ≤ v.2)

instance : DecidableRel lexQLe := fun u v =>
  inferInstanceAs (Decidable (u.1 < v.1 ∨ (u.1 = v.1 ∧ u.2 ≤ v.2)))

/-- Comparison of list elements through a `ℚ × ℚ` sort key; Python's
`sorted(..., key=k)` is the stable sort by this relation.  A scalar key `k`
is represented as `(k, 0)`. -/
def byKey {γ : Type} (k : γ → ℚ × ℚ) (x y : γ) : Prop :=
  lexQLe (k x) (k y)

instance {γ : Type} (k : γ → ℚ × ℚ) : DecidableRel (byKey k) := fun x y =>
  inferInstanceAs (Decidable (lexQLe (k x) (k y)))

instance {γ : Type} (k : γ → ℚ × ℚ) : IsTotal γ (byKey k) :=
  ⟨fun x y => by
    unfold byKey lexQLe
    rcases lt_trichotomy (k x).1 (k y).1 with h | h | h
    · exact Or.inl (Or.inl h)
    · rcases le_total (k x).2 (k y).2 with h2 | h2
      · exact Or.inl (Or.inr ⟨h, h2⟩)
      · exact Or.inr (Or.inr ⟨h.symm, h2⟩)
    · exact Or.inr (Or.inl h)⟩

instance {γ : Type} (k : γ → ℚ × ℚ) : IsTrans γ (byKey k) :=
  ⟨fun x y z h1 h2 => by
    unfold byKey lexQLe at h1 h2 ⊢
    rcases h1 with h1 | ⟨e1, h1⟩
    · rcases h2 with h2 | ⟨e2, _⟩
      · exact Or.inl (h1.trans h2)
      · exact Or.inl (e2 ▸ h1)
    · rcases h2 with h2 | ⟨e2, h2⟩
      · exact Or.inl (e1 ▸ h2)
      · exact Or.inr ⟨e1.trans e2, h1.trans h2⟩⟩

/-- The effective cost lookup in `greedy_select_under_budget`:
`float(cost.loc[a, b]) if (a in cost.index and b in cost.columns) else 1.0`. -/
def effCost [DecidableEq A] [DecidableEq B] (cost : CTable A B) (a : A) (b : B) : ℚ :=
  if a ∈ cost.rows ∧ b ∈ cost.cols then cost.entry a b else 1

/-- The flattened cell list built by `greedy_select_under_budget`:
`(a, b, score.loc[a, b], cost lookup)` in row-major order. -/
def greedyFlat [DecidableEq A] [DecidableEq B] (score : Table A B)
    (cost : CTable A B) : List (A × B × FVal × ℚ) :=
  score.rows.flatMap fun a => score.cols.map fun b =>
    (a, b, score.entry a b, effCost cost a b)

/-- The sort key of `greedy_select_under_budget`:
`(-np.nan_to_num(val, -np.inf), cost)`.  The second positional argument of
`np.nan_to_num` is `copy`, not `nan`, so NaN scores are in fact replaced by
the default `0.0` in the key (they are skipped by the selection loop in any
case). -/
def greedyKey (x : A × B × FVal × ℚ) : ℚ × ℚ :=
  (-(x.2.2.1.getD 0), x.2.2.2)

/-- The selection loop of `greedy_select_under_budget`: walk the sorted cell
list, skip NaN scores, accept a cell whenever its cost still fits in the
budget, otherwise `continue` with the cells after it. -/
def greedyScan (budget : WithTop ℚ) :
    List (A × B × FVal × ℚ) → ℚ → List (A × B) × ℚ
  | [], tc => ([], tc)
  | x :: rest, tc =>
    match x.2.2.1 with
    | none => greedyScan budget rest tc
    | some _ =>
      if ((tc + x.2.2.2 : ℚ) : WithTop ℚ) ≤ budget then
        let r := greedyScan budget rest (tc + x.2.2.2)
        ((x.1, x.2.1) :: r.1, r.2)
      else greedyScan budget rest tc

/-- Embedding of `optimizer.greedy_select_under_budget` (the default
`return_selected_mask=False` path; the mask variant only adds a boolean
mask to the same pair).  `budget` is `WithTop ℚ` so that the source's
default `np.inf` is representable. -/
def greedy_select_under_budget [DecidableEq A] [DecidableEq B] (score : Table A B)
    (cost : Option (CTable A B)) (budget : WithTop ℚ) : List (A × B) × ℚ :=
  let cost := cost.getD ⟨score.rows, score.cols, fun _ _ => 1⟩
  greedyScan budget ((greedyFlat score cost).insertionSort (byKey greedyKey)) 0

/-- The procedure the spec describes for the greedy selector: keep only the
scored (non-no-data) cells, sort them by descending score breaking ties by
ascending cost, then accept in order every cell whose cost fits the
remaining budget, skipping (not stopping at) cells that would exceed it. -/
def specScan (budget : WithTop ℚ) :
    List (A × B × ℚ × ℚ) → ℚ → List (A × B) × ℚ
  | [], tc => ([], tc)
  | x :: rest, tc =>
    if ((tc + x.2.2.2 : ℚ) : WithTop ℚ) ≤ budget then
      let r := specScan budget rest (tc + x.2.2.2)
      ((x.1, x.2.1) :: r.1, r.2)
    else specScan budget rest tc

/-- The spec-side greedy procedure (see `specScan`), for comparison with the
source's `greedy_select_under_budget`. -/
def greedySpecProcedure [DecidableEq A] [DecidableEq B] (score : Table A B)
    (cost : Option (CTable A B)) (budget : WithTop ℚ) : List (A × B) × ℚ :=
  let cost := cost.getD ⟨score.rows, score.cols, fun _ _ => 1⟩
  let scored := (greedyFlat score cost).filterMap fun x =>
    x.2.2.1.map fun v => (x.1, x.2.1, v, x.2.2.2)
  specScan budget
    (scored.insertionSort (byKey fun x => (-x.2.2.1, x.2.2.2))) 0

/-- `itertools.combinations(pool, k)`: all length-`k` subsequences of the
pool, in the order `itertools` enumerates them (lexicographic by position). -/
def combinations {γ : Type} : ℕ → List γ → List (List γ)
  | 0, _ => [[]]
  | _ + 1, [] => []
  | k + 1, x :: xs => ((combinations k xs).map fun c => x :: c) ++ combinations (k + 1) xs

/-- The candidate list built by `exhaustive_best_k`: non-NaN cells with their
score and cost (`cost.loc[a, b]` without a membership guard; `1.0` when no
cost table is given). -/
def exhaustiveFlat (score : Table A B) (cost : Option (CTable A B)) :
    List ((A × B) × ℚ × ℚ) :=
  (score.rows.flatMap fun a => score.cols.map fun b =>
      ((a, b), score.entry a b, match cost with | none => 1 | some c => c.entry a b)).filterMap
    fun x => x.2.1.map fun v => (x.1, v, x.2.2)

/-- Total score of a combination. -/
def combScore (comb : List ((A × B) × ℚ × ℚ)) : ℚ :=
  (comb.map fun c => c.2.1).sum

/-- Total cost of a combination. -/
def combCost (comb : List ((A × B) × ℚ × ℚ)) : ℚ :=
  (comb.map fun c => c.2.2).sum

/-- The accumulator step of `exhaustive_best_k`'s enumeration loop:
`if csum <= budget and ssum > best_score`, with `best_score` starting at
`-np.inf` (modelled by `none`). -/
def exhaustiveStep (budget : WithTop ℚ) (best : Option (List (A × B) × ℚ))
    (comb : List ((A × B) × ℚ × ℚ)) : Option (List (A × B) × ℚ) :=
  if (combCost comb : WithTop ℚ) ≤ budget then
    match best with
    | none => some (comb.map fun c => c.1, combScore comb)
    | some bb =>
      if bb.2 < combScore comb then some (comb.map fun c => c.1, combScore comb) else best
  else best

/-- The accumulator update of `exhaustive_best_k` with the budget test
already passed: replace the best only on strict improvement.  Used to state
how the enumeration fold behaves over the feasible combinations. -/
def pickMax (best : Option (List (A × B) × ℚ))
    (comb : List ((A × B) × ℚ × ℚ)) : Option (List (A × B) × ℚ) :=
  match best with
  | none => some (comb.map fun c => c.1, combScore comb)
  | some bb =>
    if bb.2 < combScore comb then some (comb.map fun c => c.1, combScore comb)
    else best

/-- Embedding of `optimizer.exhaustive_best_k`: enumerate every combination
of exactly `k` non-NaN cells, keep the best feasible one (strict improvement
only, so ties keep the first found); `([], 0.0)` when none was feasible. -/
def exhaustive_best_k (score : Table A B) (cost : Option (CTable A B))
    (k : ℕ) (budget : WithTop ℚ) : List (A × B) × ℚ :=
  match (combinations k (exhaustiveFlat score cost)).foldl (exhaustiveStep budget) none with
  | none => ([], 0)
  | some best => best

/-- A beam entry of `beam_search_pair_selection`: the tuple
`(selected_list, total_score, total_cost)`. -/
structure BeamEntry (A B : Type) where
  sel : List (A × B)
  ssum : ℚ
  csum : ℚ
deriving DecidableEq

/-- The candidate list of `beam_search_pair_selection`: non-NaN cells with
score and `cost.loc[a, b]`, pre-sorted by descending score for deterministic
expansion order. -/
def beamCandidates (score : Table A B) (cost : CTable A B) :
    List ((A × B) × ℚ × ℚ) :=
  ((score.rows.flatMap fun a => score.cols.map fun b =>
      ((a, b), score.entry a b, cost.entry a b)).filterMap
    fun x => x.2.1.map fun v => (x.1, v, x.2.2)).insertionSort
    (byKey fun c => (-c.2.1, 0))

/-- Expansion of one retained partial selection: try every candidate not
already selected, keep the extension when its cumulative cost still fits the
budget. -/
def expandEntry [DecidableEq A] [DecidableEq B]
    (candidates : List ((A × B) × ℚ × ℚ)) (budget : WithTop ℚ)
    (e : BeamEntry A B) : List (BeamEntry A B) :=
  candidates.filterMap fun c =>
    if c.1 ∈ e.sel then none
    else if ((e.csum + c.2.2 : ℚ) : WithTop ℚ) ≤ budget then
      some ⟨e.sel ++ [c.1], e.ssum + c.2.1, e.csum + c.2.2⟩
    else none

/-- The running `best` update: the source replaces `best` only on strict
improvement (`new_sum > best[1]`), scanning the new generation in expansion
order. -/
def beamBestUpd (best : BeamEntry A B) (l : List (BeamEntry A B)) : BeamEntry A B :=
  l.foldl (fun bb e => if bb.ssum < e.ssum then e else bb) best

/-- The main loop of `beam_search_pair_selection`: expand each generation,
break when no expansion is possible, otherwise keep the top `bw` partial
selections by cumulative score (stable sort by `-score`, then truncate). -/
def beamLoop [DecidableEq A] [DecidableEq B]
    (candidates : List ((A × B) × ℚ × ℚ)) (budget : WithTop ℚ) (bw : ℕ) :
    ℕ → List (BeamEntry A B) → BeamEntry A B → BeamEntry A B
  | 0, _, best => best
  | n + 1, beam, best =>
    let new_beam := beam.flatMap (expandEntry candidates budget)
    if new_beam.isEmpty then best
    else
      beamLoop candidates budget bw n
        ((new_beam.insertionSort (byKey fun e => (-e.ssum, 0))).take bw)
        (beamBestUpd best new_beam)

/-- The generations produced by `beamLoop` from a given state: each element
is one iteration's `new_beam` (before truncation).  This auxiliary mirrors
`beamLoop` so the returned entry can be compared against everything ever
generated. -/
def beamGens [DecidableEq A] [DecidableEq B]
    (candidates : List ((A × B) × ℚ × ℚ)) (budget : WithTop ℚ) (bw : ℕ) :
    ℕ → List (BeamEntry A B) → List (List (BeamEntry A B))
  | 0, _ => []
  | n + 1, beam =>
    let new_beam := beam.flatMap (expandEntry candidates budget)
    if new_beam.isEmpty then []
    else
      new_beam ::
        beamGens candidates budget bw n
          ((new_beam.insertionSort (byKey fun e => (-e.ssum, 0))).take bw)

/-- The best entry tracked across all generations for the given inputs
(`beam` starts as `[([], 0.0, 0.0)]` and `best` as `([], 0.0, 0.0)`;
`max_iters` defaults to the number of candidates). -/
def beamTrackedBest [DecidableEq A] [DecidableEq B] (score : Table A B)
    (cost : CTable A B) (budget : WithTop ℚ) (bw : ℕ)
    (max_iters : Option ℕ) : BeamEntry A B :=
  let candidates := beamCandidates score cost
  beamLoop candidates budget bw (max_iters.getD candidates.length)
    [⟨[], 0, 0⟩] ⟨[], 0, 0⟩

/-- Embedding of `optimizer.beam_search_pair_selection`: return the best
selection seen across all generations, falling back to the greedy strategy's
result when no positive-score selection was ever found. -/
def beam_search_pair_selection [DecidableEq A] [DecidableEq B]
    (score : Table A B) (cost : Option (CTable A B)) (budget : WithTop ℚ)
    (beam_width : ℕ) (max_iters : Option ℕ) : List (A × B) × ℚ :=
  let cost := cost.getD ⟨score.rows, score.cols, fun _ _ => 1⟩
  let best := beamTrackedBest score cost budget beam_width max_iters
  if best.ssum ≤ 0 then greedy_select_under_budget score (some cost) budget
  else (best.sel, best.ssum)

/-! ### A small toolkit for sums over lists -/

/-- Sum of `f` over a list. -/
def lsum {γ : Type} (l : List γ) (f : γ → ℚ) : ℚ :=
  (l.map f).sum

/-- A cell value read as a rational, with missing read as `0`. -/
def entQ (t : Table A B) (a : A) (b : B) : ℚ :=
  (t.entry a b).getD 0

/-- The presence indicator of a cell: `1` when observed, `0` when missing. -/
def entInd (t : Table A B) (a : A) (b : B) : ℚ :=
  if (t.entry a b).isSome then 1 else 0

/-- Sum of the observed values of row `a`. -/
def rowSumQ (t : Table A B) (a : A) : ℚ :=
  lsum t.cols fun b => entQ t a b

/-- Number of observed values of row `a` (as a rational). -/
def rowCntQ (t : Table A B) (a : A) : ℚ :=
  lsum t.cols fun b => entInd t a b

/-- Sum of the observed values of column `b`. -/
def colSumQ (t : Table A B) (b : B) : ℚ :=
  lsum t.rows fun a => entQ t a b

/-- Number of observed values of column `b` (as a rational). -/
def colCntQ (t : Table A B) (b : B) : ℚ :=
  lsum t.rows fun a => entInd t a b

/-- Sum of all observed values. -/
def totSumQ (t : Table A B) : ℚ :=
  lsum t.rows fun a => rowSumQ t a

/-- Number of all observed values (as a rational). -/
def totCntQ (t : Table A B) : ℚ :=
  lsum t.rows fun a => rowCntQ t a

/-- The skip-NaN row mean as a rational (junk value `0` for an empty row). -/
def rmeanQ (t : Table A B) (a : A) : ℚ :=
  if rowCntQ t a = 0 then 0 else rowSumQ t a / rowCntQ t a

/-- The skip-NaN column mean as a rational. -/
def cmeanQ (t : Table A B) (b : B) : ℚ :=
  if colCntQ t b = 0 then 0 else colSumQ t b / colCntQ t b

/-- The skip-NaN overall mean as a rational. -/
def omeanQ (t : Table A B) : ℚ :=
  if totCntQ t = 0 then 0 else totSumQ t / totCntQ t

/-! ### Concrete tables used in counterexamples and witnesses -/

/-- A one-cell means table with value `1` at `(A1, B1)` (levels as `0`). -/
def mOne : Table ℕ ℕ :=
  ⟨[0], [0], fun _ _ => some 1⟩

/-- A one-cell cost table whose only entry is NaN. -/
def cNaN : Table ℕ ℕ :=
  ⟨[0], [0], fun _ _ => none⟩

/-- A one-cell cost table over a different level universe (`A2 = 1`), with
value `5`. -/
def cOther : Table ℕ ℕ :=
  ⟨[1], [0], fun _ _ => some 5⟩

/-- The rational `1e-10`, written as a normalized fraction. -/
def tinyQ : ℚ :=
  ⟨1, 10000000000, by decide, by decide⟩

/-- The rational `1e-9` (the `eps` default of `normalize_costs`), written as
a normalized fraction. -/
def epsQ : ℚ :=
  ⟨1, 1000000000, by decide, by decide⟩

/-- A one-cell cost table whose only cost is `1e-10`, below the `1e-9`
epsilon of `normalize_costs`. -/
def cTiny : Table ℕ ℕ :=
  ⟨[0], [0], fun _ _ => some tinyQ⟩

/-- The 3×2 score table `[[10, 8], [6, 4], [2, 1]]` of the spec's greedy
example (A levels `0,1,2`, B levels `0,1`). -/
def scoreC3 : Table ℕ ℕ :=
  ⟨[0, 1, 2], [0, 1], fun a b =>
    some (match a, b with
      | 0, 0 => 10
      | 0, _ => 8
      | 1, 0 => 6
      | 1, _ => 4
      | 2, 0 => 2
      | _, _ => 1)⟩

/-- A one-cell score table with score `5`. -/
def score4 : Table ℕ ℕ :=
  ⟨[0], [0], fun _ _ => some 5⟩

/-- A one-cell cost table with cost `2`, aligned with `score4`. -/
def cost4 : CTable ℕ ℕ :=
  ⟨[0], [0], fun _ _ => 2⟩

/-- The single-cell replicate table `[(0, [1.0, 2.0, 3.0])]` used to exercise
`compute_bootstrap_ci`. -/
def bootC5 : List (ℕ × List FVal) :=
  [(0, [some 1, some 2, some 3])]

/-- One possible state of the global NumPy generator: all 100000 standard
normal draws equal to `1`. -/
def drawsOne : List ℚ :=
  List.replicate 100000 1

/-- Another possible state of the global NumPy generator: all 100000 draws
equal to `2`. -/
def drawsTwo : List ℚ :=
  List.replicate 100000 2

/-! ### Theorems -/

theorem lsum_nil {γ : Type} (f : γ → ℚ) : lsum [] f = 0 := rfl

theorem lsum_cons {γ : Type} (x : γ) (l : List γ) (f : γ → ℚ) :
    lsum (x :: l) f = f x + lsum l f := by
  simp [lsum]

theorem lsum_zero {γ : Type} (l : List γ) : lsum l (fun _ => (0 : ℚ)) = 0 := by
  induction l with
  | nil => rfl
  | cons x l ih => simp [lsum_cons, ih]

theorem lsum_add {γ : Type} (l : List γ) (f g : γ → ℚ) :
    lsum l (fun x => f x + g x) = lsum l f + lsum l g := by
  induction l with
  | nil => simp [lsum_nil]
  | cons x l ih => simp [lsum_cons, ih]; ring

theorem lsum_neg {γ : Type} (l : List γ) (f : γ → ℚ) :
    lsum l (fun x => -f x) = -lsum l f := by
  induction l with
  | nil => simp [lsum_nil]
  | cons x l ih => simp [lsum_cons, ih]; ring

theorem lsum_sub {γ : Type} (l : List γ) (f g : γ → ℚ) :
    lsum l (fun x => f x - g x) = lsum l f - lsum l g := by
  induction l with
  | nil => simp [lsum_nil]
  | cons x l ih => simp [lsum_cons, ih]; ring

theorem lsum_mul_const {γ : Type} (l : List γ) (f : γ → ℚ) (c : ℚ) :
    lsum l (fun x => f x * c) = lsum l f * c := by
  induction l with
  | nil => simp [lsum_nil]
  | cons x l ih => simp [lsum_cons, ih]; ring

theorem lsum_congr {γ : Type} {l : List γ} {f g : γ → ℚ}
    (h : ∀ x ∈ l, f x = g x) : lsum l f = lsum l g := by
  induction l with
  | nil => rfl
  | cons x l ih =>
    rw [lsum_cons, lsum_cons, h x (List.mem_cons_self x l),
      ih fun y hy => h y (List.mem_cons_of_mem x hy)]

theorem lsum_swap {γ δ : Type} (l1 : List γ) (l2 : List δ) (f : γ → δ → ℚ) :
    lsum l1 (fun a => lsum l2 (f a)) = lsum l2 (fun b => lsum l1 (fun a => f a b)) := by
  induction l1 with
  | nil => simp [lsum_nil, lsum_zero]
  | cons x l ih =>
    rw [lsum_cons, ih, ← lsum_add]
    exact lsum_congr fun b _ => (lsum_cons x l fun a => f a b).symm

theorem lsum_append {γ : Type} (l1 l2 : List γ) (f : γ → ℚ) :
    lsum (l1 ++ l2) f = lsum l1 f + lsum l2 f := by
  unfold lsum
  rw [List.map_append, List.sum_append]

theorem lsum_nonneg {γ : Type} {l : List γ} {f : γ → ℚ}
    (h : ∀ x ∈ l, 0 ≤ f x) : 0 ≤ lsum l f := by
  induction l with
  | nil => simp [lsum_nil]
  | cons x l ih =>
    rw [lsum_cons]
    have := h x (List.mem_cons_self x l)
    have := ih fun y hy => h y (List.mem_cons_of_mem x hy)
    linarith

theorem eq_zero_of_lsum_eq_zero {γ : Type} {l : List γ} {f : γ → ℚ}
    (hpos : ∀ x ∈ l, 0 ≤ f x) (hz : lsum l f = 0) : ∀ x ∈ l, f x = 0 := by
  induction l with
  | nil => intro x hx; cases hx
  | cons y l ih =>
    rw [lsum_cons] at hz
    have h1 : 0 ≤ f y := hpos y (List.mem_cons_self y l)
    have h2 : 0 ≤ lsum l f := lsum_nonneg fun x hx => hpos x (List.mem_cons_of_mem y hx)
    have hy : f y = 0 := by linarith
    intro x hx
    rcases List.mem_cons.1 hx with rfl | hx
    · exact hy
    · exact ih (fun z hz2 => hpos z (List.mem_cons_of_mem y hz2)) (by linarith) x hx

theorem lsum_flatMap {γ δ : Type} (l : List γ) (g : γ → List δ) (f : δ → ℚ) :
    lsum (l.flatMap g) f = lsum l (fun a => lsum (g a) f) := by
  induction l with
  | nil => rfl
  | cons x l ih => rw [List.flatMap_cons, lsum_append, ih, lsum_cons]

theorem lsum_map {γ δ : Type} (l : List γ) (g : γ → δ) (f : δ → ℚ) :
    lsum (l.map g) f = lsum l (fun a => f (g a)) := by
  simp [lsum, List.map_map]; rfl

theorem sum_filterMap_id (l : List FVal) :
    (l.filterMap id).sum = lsum l (fun v => v.getD 0) := by
  induction l with
  | nil => rfl
  | cons x l ih =>
    cases x with
    | none => simpa [lsum_cons] using ih
    | some v => simp [lsum_cons, ih]

theorem length_filterMap_id (l : List FVal) :
    (((l.filterMap id).length : ℚ)) = lsum l (fun v => if v.isSome then 1 else 0) := by
  induction l with
  | nil => rfl
  | cons x l ih =>
    cases x with
    | none => simpa [lsum_cons] using ih
    | some v => simp [lsum_cons, ← ih]; ring

/-! ### The interaction residual identity (claim C10) -/

theorem entInd_nonneg (t : Table A B) (a : A) (b : B) : 0 ≤ entInd t a b := by
  unfold entInd; split <;> norm_num

theorem fmeanList_eq (l : List FVal) :
    fmeanList l =
      if ((l.filterMap id).length : ℚ) = 0 then none
      else some ((l.filterMap id).sum / ((l.filterMap id).length : ℚ)) := by
  unfold fmeanList
  rcases Nat.eq_zero_or_pos (l.filterMap id).length with h | h
  · simp [h]
  · have h' : (l.filterMap id).length ≠ 0 := Nat.pos_iff_ne_zero.1 h
    have h'' : ((l.filterMap id).length : ℚ) ≠ 0 := Nat.cast_ne_zero.2 h'
    simp [h', h'']

theorem fmean_rowVals (t : Table A B) (a : A) :
    fmeanList (t.rowVals a) =
      if rowCntQ t a = 0 then none else some (rmeanQ t a) := by
  rw [fmeanList_eq]
  have hc : (((t.rowVals a).filterMap id).length : ℚ) = rowCntQ t a := by
    rw [length_filterMap_id]
    unfold Table.rowVals
    rw [lsum_map]
    rfl
  have hs : ((t.rowVals a).filterMap id).sum = rowSumQ t a := by
    rw [sum_filterMap_id]
    unfold Table.rowVals
    rw [lsum_map]
    rfl
  rw [hc, hs]
  by_cases h : rowCntQ t a = 0
  · rw [if_pos h, if_pos h]
  · rw [if_neg h, if_neg h]
    unfold rmeanQ
    rw [if_neg h]

theorem fmean_colVals (t : Table A B) (b : B) :
    fmeanList (t.colVals b) =
      if colCntQ t b = 0 then none else some (cmeanQ t b) := by
  rw [fmeanList_eq]
  have hc : (((t.colVals b).filterMap id).length : ℚ) = colCntQ t b := by
    rw [length_filterMap_id]
    unfold Table.colVals
    rw [lsum_map]
    rfl
  have hs : ((t.colVals b).filterMap id).sum = colSumQ t b := by
    rw [sum_filterMap_id]
    unfold Table.colVals
    rw [lsum_map]
    rfl
  rw [hc, hs]
  by_cases h : colCntQ t b = 0
  · rw [if_pos h, if_pos h]
  · rw [if_neg h, if_neg h]
    unfold cmeanQ
    rw [if_neg h]

theorem lsum_allVals (t : Table A B) (f : FVal → ℚ) :
    lsum t.allVals f = lsum t.rows fun a => lsum t.cols fun b => f (t.entry a b) := by
  unfold Table.allVals
  rw [lsum_flatMap]
  refine lsum_congr fun a _ => ?_
  unfold Table.rowVals
  rw [lsum_map]

theorem fmean_allVals (t : Table A B) :
    fmeanList t.allVals = if totCntQ t = 0 then none else some (omeanQ t) := by
  rw [fmeanList_eq]
  have hc : ((t.allVals.filterMap id).length : ℚ) = totCntQ t := by
    rw [length_filterMap_id, lsum_allVals]
    rfl
  have hs : (t.allVals.filterMap id).sum = totSumQ t := by
    rw [sum_filterMap_id, lsum_allVals]
    rfl
  rw [hc, hs]
  by_cases h : totCntQ t = 0
  · rw [if_pos h, if_pos h]
  · rw [if_neg h, if_neg h]
    unfold omeanQ
    rw [if_neg h]

theorem rowCntQ_ne_zero (t : Table A B) {a : A} {b : B} (hb : b ∈ t.cols)
    (hp : (t.entry a b).isSome) : rowCntQ t a ≠ 0 := by
  intro h
  have := eq_zero_of_lsum_eq_zero (fun x _ => entInd_nonneg t a x) h b hb
  rw [entInd, if_pos hp] at this
  norm_num at this

theorem colCntQ_ne_zero (t : Table A B) {a : A} {b : B} (ha : a ∈ t.rows)
    (hp : (t.entry a b).isSome) : colCntQ t b ≠ 0 := by
  intro h
  have := eq_zero_of_lsum_eq_zero (fun x _ => entInd_nonneg t x b) h a ha
  rw [entInd, if_pos hp] at this
  norm_num at this

theorem totCntQ_ne_zero (t : Table A B) {a : A} {b : B} (ha : a ∈ t.rows)
    (hb : b ∈ t.cols) (hp : (t.entry a b).isSome) : totCntQ t ≠ 0 := by
  intro h
  have hrow :=
    eq_zero_of_lsum_eq_zero
      (fun x _ => lsum_nonneg fun y _ => entInd_nonneg t x y) h a ha
  exact rowCntQ_ne_zero t hb hp hrow

theorem rowSumQ_eq_zero_of_cnt (t : Table A B) {a : A} (h : rowCntQ t a = 0) :
    rowSumQ t a = 0 := by
  have hall := eq_zero_of_lsum_eq_zero (fun x _ => entInd_nonneg t a x) h
  unfold rowSumQ
  rw [← lsum_zero t.cols]
  refine lsum_congr fun b hb => ?_
  have := hall b hb
  unfold entInd at this
  unfold entQ
  cases hx : t.entry a b with
  | none => rfl
  | some v => rw [hx] at this; simp at this

theorem colSumQ_eq_zero_of_cnt (t : Table A B) {b : B} (h : colCntQ t b = 0) :
    colSumQ t b = 0 := by
  have hall := eq_zero_of_lsum_eq_zero (fun x _ => entInd_nonneg t x b) h
  unfold colSumQ
  rw [← lsum_zero t.rows]
  refine lsum_congr fun a ha => ?_
  have := hall a ha
  unfold entInd at this
  unfold entQ
  cases hx : t.entry a b with
  | none => rfl
  | some v => rw [hx] at this; simp at this

theorem totSumQ_eq_zero_of_cnt (t : Table A B) (h : totCntQ t = 0) :
    totSumQ t = 0 := by
  have hall :=
    eq_zero_of_lsum_eq_zero
      (fun x _ => lsum_nonneg fun y _ => entInd_nonneg t x y) h
  unfold totSumQ
  rw [← lsum_zero t.rows]
  exact lsum_congr fun a ha => rowSumQ_eq_zero_of_cnt t (hall a ha)

theorem rmeanQ_mul_cnt (t : Table A B) (a : A) :
    rmeanQ t a * rowCntQ t a = rowSumQ t a := by
  unfold rmeanQ
  split
  · rw [zero_mul, rowSumQ_eq_zero_of_cnt t (by assumption)]
  · rw [div_mul_cancel₀ _ (by assumption)]

theorem cmeanQ_mul_cnt (t : Table A B) (b : B) :
    cmeanQ t b * colCntQ t b = colSumQ t b := by
  unfold cmeanQ
  split
  · rw [zero_mul, colSumQ_eq_zero_of_cnt t (by assumption)]
  · rw [div_mul_cancel₀ _ (by assumption)]

theorem omeanQ_mul_cnt (t : Table A B) :
    omeanQ t * totCntQ t = totSumQ t := by
  unfold omeanQ
  split
  · rw [zero_mul, totSumQ_eq_zero_of_cnt t (by assumption)]
  · rw [div_mul_cancel₀ _ (by assumption)]

theorem interaction_matrix_entry_unfold (t : Table A B) (a : A) (b : B) :
    (two_factor_interaction_matrix t).entry a b =
      match t.entry a b with
      | none => none
      | some m =>
        fadd (fsub (fsub (some m) (fmeanList (t.rowVals a))) (fmeanList (t.colVals b)))
          (fmeanList t.allVals) := rfl

theorem interaction_entry (t : Table A B) {a : A} {b : B}
    (ha : a ∈ t.rows) (hb : b ∈ t.cols) {m : ℚ} (hx : t.entry a b = some m) :
    (two_factor_interaction_matrix t).entry a b =
      some (m - rmeanQ t a - cmeanQ t b + omeanQ t) := by
  have hsome : (t.entry a b).isSome := by rw [hx]; rfl
  rw [interaction_matrix_entry_unfold, hx, fmean_rowVals, fmean_colVals, fmean_allVals,
    if_neg (rowCntQ_ne_zero t hb hsome), if_neg (colCntQ_ne_zero t ha hsome),
    if_neg (totCntQ_ne_zero t ha hb hsome)]
  simp [fsub, fadd]

theorem interaction_entry_getD (t : Table A B) {a : A} {b : B}
    (ha : a ∈ t.rows) (hb : b ∈ t.cols) :
    ((two_factor_interaction_matrix t).entry a b).getD 0 =
      entInd t a b * (entQ t a b - rmeanQ t a - cmeanQ t b + omeanQ t) := by
  cases hx : t.entry a b with
  | none =>
    rw [interaction_matrix_entry_unfold, hx]
    simp [entInd, hx]
  | some m =>
    rw [interaction_entry t ha hb hx]
    simp [entInd, entQ, hx]

theorem obsSum_eq_lsum (t : Table A B) :
    obsSum t = lsum t.rows fun a => lsum t.cols fun b => (t.entry a b).getD 0 := by
  unfold obsSum
  rw [sum_filterMap_id, lsum_allVals]

/-- Claim C10: for every cell-means table (missing cells included), the
two-way interaction residual matrix `cell − rowMean − colMean + overallMean`
sums to zero over all non-missing cells — exactly, in exact arithmetic, so in
particular within floating-point tolerance.  This holds both for
`effects.two_factor_interaction_matrix` and for
`pci.interaction_matrix_from_cell_means`. -/
theorem interaction_matrix_obsSum_zero (t : Table A B) :
    obsSum (two_factor_interaction_matrix t) = 0 ∧
      obsSum (interaction_matrix_from_cell_means t) = 0 := by
  have hmain : obsSum (two_factor_interaction_matrix t) = 0 := by
    rw [obsSum_eq_lsum]
    have hrows : (two_factor_interaction_matrix t).rows = t.rows := rfl
    have hcols : (two_factor_interaction_matrix t).cols = t.cols := rfl
    rw [hrows, hcols]
    have hpoint :
        (lsum t.rows fun a => lsum t.cols fun b =>
            ((two_factor_interaction_matrix t).entry a b).getD 0) =
          lsum t.rows fun a => lsum t.cols fun b =>
            entInd t a b * (entQ t a b - rmeanQ t a - cmeanQ t b + omeanQ t) := by
      refine lsum_congr fun a ha => lsum_congr fun b hb => ?_
      exact interaction_entry_getD t ha hb
    rw [hpoint]
    have hsplit :
        (lsum t.rows fun a => lsum t.cols fun b =>
            entInd t a b * (entQ t a b - rmeanQ t a - cmeanQ t b + omeanQ t)) =
          (lsum t.rows fun a => lsum t.cols fun b => entInd t a b * entQ t a b) -
            (lsum t.rows fun a => lsum t.cols fun b => entInd t a b * rmeanQ t a) -
            (lsum t.rows fun a => lsum t.cols fun b => entInd t a b * cmeanQ t b) +
            (lsum t.rows fun a => lsum t.cols fun b => entInd t a b * omeanQ t) := by
      rw [← lsum_sub, ← lsum_sub, ← lsum_add]
      refine lsum_congr fun a _ => ?_
      rw [← lsum_sub, ← lsum_sub, ← lsum_add]
      refine lsum_congr fun b _ => ?_
      ring
    rw [hsplit]
    have h1 :
        (lsum t.rows fun a => lsum t.cols fun b => entInd t a b * entQ t a b) =
          totSumQ t := by
      unfold totSumQ rowSumQ
      refine lsum_congr fun a _ => lsum_congr fun b _ => ?_
      unfold entInd entQ
      cases hx : t.entry a b <;> simp
    have h2 :
        (lsum t.rows fun a => lsum t.cols fun b => entInd t a b * rmeanQ t a) =
          totSumQ t := by
      unfold totSumQ
      refine lsum_congr fun a _ => ?_
      have hx2 : (lsum t.cols fun b => entInd t a b * rmeanQ t a) =
          rowCntQ t a * rmeanQ t a := by
        unfold rowCntQ
        rw [← lsum_mul_const]
      rw [hx2, mul_comm (rowCntQ t a) (rmeanQ t a), rmeanQ_mul_cnt]
    have h3 :
        (lsum t.rows fun a => lsum t.cols fun b => entInd t a b * cmeanQ t b) =
          totSumQ t := by
      rw [lsum_swap]
      have hcolsum :
          (lsum t.cols fun b => lsum t.rows fun a => entInd t a b * cmeanQ t b) =
            lsum t.cols fun b => colSumQ t b := by
        refine lsum_congr fun b _ => ?_
        have hx3 : (lsum t.rows fun a => entInd t a b * cmeanQ t b) =
            colCntQ t b * cmeanQ t b := by
          unfold colCntQ
          rw [← lsum_mul_const]
        rw [hx3, mul_comm (colCntQ t b) (cmeanQ t b), cmeanQ_mul_cnt]
      rw [hcolsum]
      unfold colSumQ totSumQ rowSumQ
      rw [lsum_swap]
    have h4 :
        (lsum t.rows fun a => lsum t.cols fun b => entInd t a b * omeanQ t) =
          totSumQ t := by
      have hrow : ∀ a, (lsum t.cols fun b => entInd t a b * omeanQ t) =
          rowCntQ t a * omeanQ t := by
        intro a
        unfold rowCntQ
        rw [← lsum_mul_const]
      have hx4 : (lsum t.rows fun a => lsum t.cols fun b => entInd t a b * omeanQ t) =
          lsum t.rows fun a => rowCntQ t a * omeanQ t :=
        lsum_congr fun a _ => hrow a
      have hcnt : (lsum t.rows fun a => rowCntQ t a) = totCntQ t := rfl
      rw [hx4, lsum_mul_const, hcnt, mul_comm (totCntQ t) (omeanQ t), omeanQ_mul_cnt]
    rw [h1, h2, h3, h4]
    ring
  exact ⟨hmain, hmain⟩

/-! ### NaN arithmetic helpers -/

theorem fsub_none_right (x : FVal) : fsub x none = none := by
  cases x <;> rfl

theorem alignedUncertainty_entry_some [DecidableEq A] [DecidableEq B]
    (means : Table A B) (u : Option (Table A B)) (a : A) (b : B) :
    ∃ q : ℚ, (alignedUncertainty means u).entry a b = some q := by
  cases u with
  | none => exact ⟨0, rfl⟩
  | some u0 => exact ⟨((u0.reindex means.rows means.cols).entry a b).getD 0, rfl⟩

theorem exists_of_mem_allVals {t : Table A B} {v : FVal} (hv : v ∈ t.allVals) :
    ∃ a, a ∈ t.rows ∧ ∃ b, b ∈ t.cols ∧ v = t.entry a b := by
  unfold Table.allVals Table.rowVals at hv
  rw [List.mem_flatMap] at hv
  obtain ⟨a, ha, hva⟩ := hv
  rw [List.mem_map] at hva
  obtain ⟨b, hb, he⟩ := hva
  exact ⟨a, ha, b, hb, he.symm⟩

theorem foldl_nanmaxStep_zero (l : List FVal) (hall : ∀ v ∈ l, v = some 0) :
    l.foldl nanmaxStep (some 0) = some 0 := by
  induction l with
  | nil => rfl
  | cons x l ih =>
    have hx := hall x (List.mem_cons_self x l)
    subst hx
    rw [List.foldl_cons]
    have hstep : nanmaxStep (some 0) (some 0) = some 0 := by simp [nanmaxStep]
    rw [hstep]
    exact ih fun v hv => hall v (List.mem_cons_of_mem _ hv)

theorem nanmax_all_zero {l : List FVal} (hne : l ≠ []) (hall : ∀ v ∈ l, v = some 0) :
    nanmax l = some 0 := by
  cases l with
  | nil => exact absurd rfl hne
  | cons x l =>
    have hx := hall x (List.mem_cons_self x l)
    subst hx
    unfold nanmax
    rw [List.foldl_cons]
    exact foldl_nanmaxStep_zero l fun v hv => hall v (List.mem_cons_of_mem _ hv)

/-! ### Cost normalization (claim C9) -/

/-- Claim C9 (amended): `normalize_costs` divides every cost by the maximum
finite cost when that maximum exceeds `eps`; when the maximum is at or below
`eps` it returns the cost table unchanged except that missing entries become
zero — in particular the all-zero cost table yields the uniformly zero table,
and no division takes place in the degenerate branch (no blow-up or
exception). -/
theorem normalize_costs_spec (t : Table A B) (eps : ℚ) :
    (∀ m : ℚ, maxCost t = some m → eps < m → ∀ a ∈ t.rows, ∀ b ∈ t.cols,
      (normalize_costs t eps).entry a b = (t.entry a b).map fun x => x / m) ∧
    (∀ m : ℚ, maxCost t = some m → m ≤ eps → ∀ a ∈ t.rows, ∀ b ∈ t.cols,
      (normalize_costs t eps).entry a b = some ((t.entry a b).getD 0)) ∧
    (0 ≤ eps → (∀ a ∈ t.rows, ∀ b ∈ t.cols, t.entry a b = some 0) →
      ∀ a ∈ t.rows, ∀ b ∈ t.cols, (normalize_costs t eps).entry a b = some 0) := by
  refine ⟨?_, ?_, ?_⟩
  · intro m hm hlt a _ b _
    have hn : normalize_costs t eps =
        if m ≤ eps then t.fillna 0
        else ⟨t.rows, t.cols, fun a b => (t.entry a b).map fun x => x / m⟩ := by
      unfold normalize_costs
      rw [hm]
    rw [hn, if_neg (not_le.2 hlt)]
  · intro m hm hle a _ b _
    have hn : normalize_costs t eps =
        if m ≤ eps then t.fillna 0
        else ⟨t.rows, t.cols, fun a b => (t.entry a b).map fun x => x / m⟩ := by
      unfold normalize_costs
      rw [hm]
    rw [hn, if_pos hle]
    rfl
  · intro heps hz a ha b hb
    have hmx : maxCost t = some 0 := by
      unfold maxCost
      by_cases hav : t.allVals = []
      · rw [if_pos hav]
      · rw [if_neg hav]
        refine nanmax_all_zero hav fun v hv => ?_
        obtain ⟨a2, ha2, b2, hb2, he⟩ := exists_of_mem_allVals hv
        rw [he, hz a2 ha2 b2 hb2]
    have hn : normalize_costs t eps =
        if (0 : ℚ) ≤ eps then t.fillna 0
        else ⟨t.rows, t.cols, fun a b => (t.entry a b).map fun x => x / 0⟩ := by
      unfold normalize_costs
      rw [hmx]
    rw [hn, if_pos heps]
    show some ((t.entry a b).getD 0) = some 0
    rw [hz a ha b hb]
    rfl

/-- Counterexample to claim C9 as stated: a cost table whose maximum cost
`1e-10` is at or below the epsilon `1e-9` is returned unchanged by
`normalize_costs` (source line `return cm.fillna(0.0)`), not uniformly
zero. -/
theorem normalize_costs_below_eps_counterexample :
    tinyQ = 1 / 10000000000 ∧ epsQ = 1 / 1000000000 ∧ tinyQ ≤ epsQ ∧
    maxCost cTiny = some tinyQ ∧
    (normalize_costs cTiny epsQ).entry 0 0 = some tinyQ ∧
    (normalize_costs cTiny epsQ).entry 0 0 ≠ some 0 := by
  refine ⟨?_, ?_, by decide, rfl, rfl, by decide⟩
  · have h := Rat.num_div_den tinyQ
    rw [show tinyQ.num = 1 from rfl, show tinyQ.den = 10000000000 from rfl] at h
    rw [← h]
    norm_num
  · have h := Rat.num_div_den epsQ
    rw [show epsQ.num = 1 from rfl, show epsQ.den = 1000000000 from rfl] at h
    rw [← h]
    norm_num

/-! ### Risk-adjusted score (claims C1, C2) -/

/-- Claim C1 (amended): element-wise over the aligned cell universe the
score is `means − kappa·uncertainty − rho·normalizedCost` (stated where the
three aligned operands are present); when both uncertainty and cost are
omitted the score equals the raw means for every `kappa`, `rho` (omission
never penalizes); and with `kappa = 0` and `rho = 0` the score equals the raw
means at every cell where the aligned normalized cost is present — not, as
the original claim had it, at every cell unconditionally (see the
counterexample). -/
theorem compute_risk_adjusted_score_spec [DecidableEq A] [DecidableEq B]
    (means : Table A B) (u c : Option (Table A B)) (kappa rho : ℚ) (flag : Bool) :
    (∀ a ∈ means.rows, ∀ b ∈ means.cols, ∀ mv uv cv : ℚ,
      means.entry a b = some mv →
      (alignedUncertainty means u).entry a b = some uv →
      (alignedCostNorm means c flag).entry a b = some cv →
      (compute_risk_adjusted_score means u c kappa rho flag).entry a b =
        some (mv - kappa * uv - rho * cv)) ∧
    (u = none → c = none → ∀ a ∈ means.rows, ∀ b ∈ means.cols,
      (compute_risk_adjusted_score means u c kappa rho flag).entry a b =
        means.entry a b) ∧
    (∀ a ∈ means.rows, ∀ b ∈ means.cols, ∀ cv : ℚ,
      (alignedCostNorm means c flag).entry a b = some cv →
      (compute_risk_adjusted_score means u c 0 0 flag).entry a b =
        means.entry a b) := by
  refine ⟨?_, ?_, ?_⟩
  · intro a _ b _ mv uv cv hm hu hc
    show fsub
        (fsub (means.entry a b) (fscale kappa ((alignedUncertainty means u).entry a b)))
        (fscale rho ((alignedCostNorm means c flag).entry a b)) = _
    rw [hm, hu, hc]
    rfl
  · rintro rfl rfl a _ b _
    show fsub (fsub (means.entry a b) (fscale kappa (some 0))) (fscale rho (some 0)) =
      means.entry a b
    cases hx : means.entry a b <;> simp [fsub, fscale]
  · intro a ha b hb cv hc
    obtain ⟨uq, hu⟩ := alignedUncertainty_entry_some means u a b
    show fsub
        (fsub (means.entry a b) (fscale 0 ((alignedUncertainty means u).entry a b)))
        (fscale 0 ((alignedCostNorm means c flag).entry a b)) = means.entry a b
    rw [hu, hc]
    cases hx : means.entry a b <;> simp [fsub, fscale]

/-- Counterexample to claim C1 as stated: with `kappa = 0` and `rho = 0` but
a supplied cost table whose aligned entry is NaN, the score at that cell is
NaN (`0.0 * NaN = NaN` in floats), not the raw mean `1`. -/
theorem score_kappa_rho_zero_counterexample :
    (compute_risk_adjusted_score mOne none (some cNaN) 0 0 true).entry 0 0 = none ∧
    mOne.entry 0 0 = some 1 :=
  ⟨rfl, rfl⟩

/-- Claim C2 (amended): after reindexing to the means universe, a missing
*uncertainty* entry contributes zero (the score is the same as with the
uncertainty omitted); a missing *cost* entry, however, makes the score at
that cell NaN — when normalization is disabled, when the reindexed cost is
all-NaN, and when the maximum reindexed cost exceeds the `1e-9` epsilon —
and only in the degenerate branch (maximum at or below the epsilon) is it
filled with zero, where the score coincides with the cost-omitted score. -/
theorem score_alignment_spec [DecidableEq A] [DecidableEq B]
    (means u0 c0 : Table A B) (uArg cArg : Option (Table A B))
    (kappa rho : ℚ) (flag : Bool) :
    (∀ a ∈ means.rows, ∀ b ∈ means.cols,
      (a ∉ u0.rows ∨ b ∉ u0.cols ∨ u0.entry a b = none) →
      (compute_risk_adjusted_score means (some u0) cArg kappa rho flag).entry a b =
        (compute_risk_adjusted_score means none cArg kappa rho flag).entry a b) ∧
    (∀ a ∈ means.rows, ∀ b ∈ means.cols,
      (a ∉ c0.rows ∨ b ∉ c0.cols) →
      (compute_risk_adjusted_score means uArg (some c0) kappa rho false).entry a b =
        none) ∧
    (maxCost (c0.reindex means.rows means.cols) = none →
      ∀ a ∈ means.rows, ∀ b ∈ means.cols,
      (compute_risk_adjusted_score means uArg (some c0) kappa rho true).entry a b =
        none) ∧
    (∀ m : ℚ, maxCost (c0.reindex means.rows means.cols) = some m →
      (1 / 1000000000 : ℚ) < m →
      ∀ a ∈ means.rows, ∀ b ∈ means.cols, (a ∉ c0.rows ∨ b ∉ c0.cols) →
      (compute_risk_adjusted_score means uArg (some c0) kappa rho true).entry a b =
        none) ∧
    (∀ m : ℚ, maxCost (c0.reindex means.rows means.cols) = some m →
      m ≤ (1 / 1000000000 : ℚ) →
      ∀ a ∈ means.rows, ∀ b ∈ means.cols, (a ∉ c0.rows ∨ b ∉ c0.cols) →
      (compute_risk_adjusted_score means uArg (some c0) kappa rho true).entry a b =
        (compute_risk_adjusted_score means uArg none kappa rho true).entry a b) := by
  refine ⟨?_, ?_, ?_, ?_, ?_⟩
  · intro a _ b _ hmiss
    have hzero : ((u0.reindex means.rows means.cols).entry a b).getD 0 = 0 := by
      show ((if a ∈ u0.rows ∧ b ∈ u0.cols then u0.entry a b else none) : FVal).getD 0 = 0
      rcases hmiss with h | h | h
      · rw [if_neg fun hc => h hc.1]
        rfl
      · rw [if_neg fun hc => h hc.2]
        rfl
      · by_cases hc : a ∈ u0.rows ∧ b ∈ u0.cols
        · rw [if_pos hc, h]
          rfl
        · rw [if_neg hc]
          rfl
    show fsub
        (fsub (means.entry a b)
          (fscale kappa (some (((u0.reindex means.rows means.cols).entry a b).getD 0))))
        (fscale rho ((alignedCostNorm means cArg flag).entry a b)) = _
    rw [hzero]
    rfl
  · intro a _ b _ hmiss
    have hext : (alignedCostNorm means (some c0) false).entry a b = none := by
      show (if a ∈ c0.rows ∧ b ∈ c0.cols then c0.entry a b else none) = none
      rcases hmiss with h | h
      · rw [if_neg fun hc => h hc.1]
      · rw [if_neg fun hc => h hc.2]
    show fsub
        (fsub (means.entry a b) (fscale kappa ((alignedUncertainty means uArg).entry a b)))
        (fscale rho ((alignedCostNorm means (some c0) false).entry a b)) = none
    rw [hext]
    exact fsub_none_right _
  · intro hmx a _ b _
    have hn : (alignedCostNorm means (some c0) true).entry a b = none := by
      show (normalize_costs (c0.reindex means.rows means.cols) (1 / 1000000000)).entry a b =
        none
      have hm : normalize_costs (c0.reindex means.rows means.cols) (1 / 1000000000) =
          ⟨means.rows, means.cols, fun _ _ => none⟩ := by
        unfold normalize_costs
        rw [hmx]
        rfl
      rw [hm]
    show fsub
        (fsub (means.entry a b) (fscale kappa ((alignedUncertainty means uArg).entry a b)))
        (fscale rho ((alignedCostNorm means (some c0) true).entry a b)) = none
    rw [hn]
    exact fsub_none_right _
  · intro m hmx hgt a _ b _ hmiss
    have hext : (c0.reindex means.rows means.cols).entry a b = none := by
      show (if a ∈ c0.rows ∧ b ∈ c0.cols then c0.entry a b else none) = none
      rcases hmiss with h | h
      · rw [if_neg fun hc => h hc.1]
      · rw [if_neg fun hc => h hc.2]
    have hn : (alignedCostNorm means (some c0) true).entry a b = none := by
      show (normalize_costs (c0.reindex means.rows means.cols) (1 / 1000000000)).entry a b =
        none
      have hm : normalize_costs (c0.reindex means.rows means.cols) (1 / 1000000000) =
          if m ≤ (1 / 1000000000 : ℚ) then (c0.reindex means.rows means.cols).fillna 0
          else ⟨means.rows, means.cols, fun a b =>
            ((c0.reindex means.rows means.cols).entry a b).map fun x => x / m⟩ := by
        unfold normalize_costs
        rw [hmx]
        rfl
      rw [hm, if_neg (not_le.2 hgt)]
      show ((c0.reindex means.rows means.cols).entry a b).map (fun x => x / m) = none
      rw [hext]
      rfl
    show fsub
        (fsub (means.entry a b) (fscale kappa ((alignedUncertainty means uArg).entry a b)))
        (fscale rho ((alignedCostNorm means (some c0) true).entry a b)) = none
    rw [hn]
    exact fsub_none_right _
  · intro m hmx hle a _ b _ hmiss
    have hext : (c0.reindex means.rows means.cols).entry a b = none := by
      show (if a ∈ c0.rows ∧ b ∈ c0.cols then c0.entry a b else none) = none
      rcases hmiss with h | h
      · rw [if_neg fun hc => h hc.1]
      · rw [if_neg fun hc => h hc.2]
    have hn : (alignedCostNorm means (some c0) true).entry a b = some 0 := by
      show (normalize_costs (c0.reindex means.rows means.cols) (1 / 1000000000)).entry a b =
        some 0
      have hm : normalize_costs (c0.reindex means.rows means.cols) (1 / 1000000000) =
          if m ≤ (1 / 1000000000 : ℚ) then (c0.reindex means.rows means.cols).fillna 0
          else ⟨means.rows, means.cols, fun a b =>
            ((c0.reindex means.rows means.cols).entry a b).map fun x => x / m⟩ := by
        unfold normalize_costs
        rw [hmx]
        rfl
      rw [hm, if_pos hle]
      show some (((c0.reindex means.rows means.cols).entry a b).getD 0) = some 0
      rw [hext]
      rfl
    show fsub
        (fsub (means.entry a b) (fscale kappa ((alignedUncertainty means uArg).entry a b)))
        (fscale rho ((alignedCostNorm means (some c0) true).entry a b)) = _
    rw [hn]
    rfl

/-- Counterexample to claim C2 as stated: a cost table over a different level
universe is reindexed to the means universe, its (only) missing entry is NOT
treated as zero contribution: the resulting score is NaN where the claim
predicts the raw mean minus zero. -/
theorem score_missing_cost_counterexample :
    (compute_risk_adjusted_score mOne none (some cOther) 1 1 true).entry 0 0 = none ∧
    mOne.entry 0 0 = some 1 ∧ cOther.rows ≠ mOne.rows :=
  ⟨rfl, rfl, by decide⟩

/-! ### Bootstrap replicate sets (claim C6) -/

theorem bootstrapCellStatisticsAux_cons {K : Type} (stat : List ℚ → ℚ) (n_boot : ℕ)
    (rng : ℕ → ℕ → ℕ → ℕ) (k : K) (series : List FVal)
    (rest : List (K × List FVal)) (g : ℕ) :
    bootstrapCellStatisticsAux stat n_boot rng ((k, series) :: rest) g =
      (let arr := series.filterMap id
       let n := arr.length
       if n = 0 then (k, List.replicate n_boot (none : FVal))
       else (k, (List.range n_boot).map fun i =>
         some (stat ((List.range n).map fun j => arr.getD (rng g i j % n) 0)))) ::
      bootstrapCellStatisticsAux stat n_boot rng rest (g + 1) := rfl

theorem bootstrapCellStatisticsAux_lengths {K : Type} (stat : List ℚ → ℚ)
    (n_boot : ℕ) (rng : ℕ → ℕ → ℕ → ℕ) :
    ∀ (groups : List (K × List FVal)) (g : ℕ),
      ∀ kv ∈ bootstrapCellStatisticsAux stat n_boot rng groups g,
        kv.2.length = n_boot := by
  intro groups
  induction groups with
  | nil =>
    intro g kv hkv
    cases hkv
  | cons p rest ih =>
    intro g kv hkv
    obtain ⟨k, series⟩ := p
    rw [bootstrapCellStatisticsAux_cons] at hkv
    rcases List.mem_cons.1 hkv with rfl | h
    · by_cases hn : (series.filterMap id).length = 0 <;> simp [hn]
    · exact ih (g + 1) kv h

theorem bootstrapCellStatisticsAux_empty_group {K : Type} (stat : List ℚ → ℚ)
    (n_boot : ℕ) (rng : ℕ → ℕ → ℕ → ℕ) :
    ∀ (groups : List (K × List FVal)) (g : ℕ) (k : K) (series : List FVal),
      (k, series) ∈ groups → series.filterMap id = [] →
      (k, List.replicate n_boot (none : FVal)) ∈
        bootstrapCellStatisticsAux stat n_boot rng groups g := by
  intro groups
  induction groups with
  | nil =>
    intro g k series hmem
    cases hmem
  | cons p rest ih =>
    intro g k series hmem hempty
    obtain ⟨k2, series2⟩ := p
    rw [bootstrapCellStatisticsAux_cons]
    rcases List.mem_cons.1 hmem with heq | h
    · injection heq with h1 h2
      subst h1
      subst h2
      simp [hempty]
    · exact List.mem_cons_of_mem _ (ih (g + 1) k series h hempty)

theorem foldl_max_le_init (l : List ℕ) (a : ℕ) : a ≤ l.foldl max a := by
  induction l generalizing a with
  | nil => exact le_refl a
  | cons x l ih => exact le_trans (le_max_left a x) (ih (max a x))

theorem mem_le_foldl_max (l : List ℕ) (a : ℕ) : ∀ x ∈ l, x ≤ l.foldl max a := by
  induction l generalizing a with
  | nil =>
    intro x hx
    cases hx
  | cons y l ih =>
    intro x hx
    rcases List.mem_cons.1 hx with rfl | hx
    · exact le_trans (le_max_right a x) (foldl_max_le_init l (max a x))
    · exact ih (max a y) x hx

theorem foldl_max_le_bound {l : List ℕ} {a c : ℕ} (ha : a ≤ c)
    (h : ∀ x ∈ l, x ≤ c) : l.foldl max a ≤ c := by
  induction l generalizing a with
  | nil => exact ha
  | cons y l ih =>
    exact ih (max_le ha (h y (List.mem_cons_self y l)))
      fun x hx => h x (List.mem_cons_of_mem y hx)

theorem bootstrap_to_dataframe_keys {K : Type} (boot : List (K × List FVal)) :
    (bootstrap_to_dataframe boot).map Prod.fst = boot.map Prod.fst := by
  unfold bootstrap_to_dataframe
  by_cases hb : boot.isEmpty
  · rw [if_pos hb, List.isEmpty_iff.1 hb]
  · rw [if_neg hb, List.map_map]
    rfl

theorem bootstrap_to_dataframe_row_lengths {K : Type} (boot : List (K × List FVal)) :
    ∀ kv ∈ bootstrap_to_dataframe boot, kv.2.length = maxRepLen boot := by
  intro kv hkv
  unfold bootstrap_to_dataframe at hkv
  by_cases hb : boot.isEmpty
  · rw [if_pos hb] at hkv
    cases hkv
  · rw [if_neg hb] at hkv
    rw [List.mem_map] at hkv
    obtain ⟨kv0, hkv0, rfl⟩ := hkv
    have hle : kv0.2.length ≤ maxRepLen boot :=
      mem_le_foldl_max _ 0 kv0.2.length
        (List.mem_map.2 ⟨kv0, hkv0, rfl⟩)
    simp only [List.length_append, List.length_replicate]
    exact Nat.add_sub_cancel' hle

theorem groupby_keys {K : Type} [DecidableEq K] (le : K → K → Prop)
    [DecidableRel le] (rows : List (K × FVal)) :
    (groupby le rows).map Prod.fst =
      (rows.map Prod.fst).dedup.insertionSort le := by
  unfold groupby
  rw [List.map_map]
  have h : (Prod.fst ∘ fun k : K =>
      (k, (rows.filter fun row => decide (row.1 = k)).map Prod.snd)) = id := rfl
  rw [h, List.map_id]

theorem bootstrapCellStatisticsAux_keys {K : Type} (stat : List ℚ → ℚ)
    (n_boot : ℕ) (rng : ℕ → ℕ → ℕ → ℕ) :
    ∀ (groups : List (K × List FVal)) (g : ℕ),
      (bootstrapCellStatisticsAux stat n_boot rng groups g).map Prod.fst =
        groups.map Prod.fst := by
  intro groups
  induction groups with
  | nil =>
    intro g
    rfl
  | cons p rest ih =>
    intro g
    obtain ⟨k, series⟩ := p
    rw [bootstrapCellStatisticsAux_cons, List.map_cons, List.map_cons, ih (g + 1)]
    by_cases hn : (series.filterMap id).length = 0 <;> simp [hn]

/-- Claim C6 (amended): every replicate set produced by
`bootstrap_cell_statistics` has exactly `n_boot` entries, and a PRESENT
group whose observations are all missing (zero observations after `dropna`)
receives a replicate set of `n_boot` NaN markers, not an error; but the keys
of the returned mapping are exactly the distinct key combinations observed
among the rows (in groupby order) — a cell of the observed level universe
that co-occurs in no row is an absent key, not an `n_boot`-marker row;
`bootstrap_to_dataframe` preserves every key and pads every replicate array
to the common maximum length, so every row of the frame built from one
bootstrap run has exactly `n_boot` columns. -/
theorem bootstrap_replicate_sets_spec {K : Type} [DecidableEq K]
    (le : K → K → Prop) [DecidableRel le] (rows : List (K × FVal))
    (stat : List ℚ → ℚ) (n_boot : ℕ) (rng : ℕ → ℕ → ℕ → ℕ) :
    ((bootstrap_cell_statistics le rows stat n_boot rng).map Prod.fst =
      (rows.map Prod.fst).dedup.insertionSort le) ∧
    (∀ k : K,
      k ∈ (bootstrap_cell_statistics le rows stat n_boot rng).map Prod.fst ↔
        k ∈ rows.map Prod.fst) ∧
    (∀ kv ∈ bootstrap_cell_statistics le rows stat n_boot rng,
      kv.2.length = n_boot) ∧
    (∀ (k : K) (series : List FVal), (k, series) ∈ groupby le rows →
      series.filterMap id = [] →
      (k, List.replicate n_boot (none : FVal)) ∈
        bootstrap_cell_statistics le rows stat n_boot rng) ∧
    ((bootstrap_to_dataframe (bootstrap_cell_statistics le rows stat n_boot rng)).map
        Prod.fst =
      (bootstrap_cell_statistics le rows stat n_boot rng).map Prod.fst) ∧
    (∀ (boot : List (K × List FVal)), ∀ kv ∈ bootstrap_to_dataframe boot,
      kv.2.length = maxRepLen boot) ∧
    (∀ kv ∈
        bootstrap_to_dataframe (bootstrap_cell_statistics le rows stat n_boot rng),
      kv.2.length = n_boot) := by
  have hkeys : (bootstrap_cell_statistics le rows stat n_boot rng).map Prod.fst =
      (rows.map Prod.fst).dedup.insertionSort le := by
    unfold bootstrap_cell_statistics
    rw [bootstrapCellStatisticsAux_keys, groupby_keys]
  refine ⟨hkeys, ?_,
    bootstrapCellStatisticsAux_lengths stat n_boot rng (groupby le rows) 0,
    fun k series hmem hempty =>
      bootstrapCellStatisticsAux_empty_group stat n_boot rng (groupby le rows) 0
        k series hmem hempty,
    bootstrap_to_dataframe_keys _,
    fun boot => bootstrap_to_dataframe_row_lengths boot, ?_⟩
  · intro k
    rw [hkeys, List.mem_insertionSort, List.mem_dedup]
  intro kv hkv
  set boot := bootstrap_cell_statistics le rows stat n_boot rng with hboot
  have hlen := bootstrap_to_dataframe_row_lengths boot kv hkv
  by_cases hb : boot.isEmpty
  · exfalso
    unfold bootstrap_to_dataframe at hkv
    rw [if_pos hb] at hkv
    cases hkv
  · have hmax : maxRepLen boot = n_boot := by
      obtain ⟨kv0, hkv0⟩ : ∃ kv0, kv0 ∈ boot := by
        cases hbe : boot with
        | nil => rw [hbe] at hb; exact absurd rfl hb
        | cons x l => exact ⟨x, hbe ▸ List.mem_cons_self x l⟩
      have hall : ∀ x ∈ boot.map fun kv => kv.2.length, x ≤ n_boot := by
        intro x hx
        rw [List.mem_map] at hx
        obtain ⟨kv1, hkv1, rfl⟩ := hx
        exact le_of_eq (bootstrapCellStatisticsAux_lengths stat n_boot rng
          (groupby le rows) 0 kv1 hkv1)
      have h1 : maxRepLen boot ≤ n_boot :=
        foldl_max_le_bound (Nat.zero_le _) hall
      have h2 : n_boot ≤ maxRepLen boot := by
        have := mem_le_foldl_max (boot.map fun kv => kv.2.length) 0 kv0.2.length
          (List.mem_map.2 ⟨kv0, hkv0, rfl⟩)
        rwa [bootstrapCellStatisticsAux_lengths stat n_boot rng
          (groupby le rows) 0 kv0 hkv0] at this
      exact le_antisymm h1 h2
    rw [hlen, hmax]

/-- Counterexample to claim C6 as stated: on a two-row frame observing only
the diagonal cells `(0, 0)` and `(1, 1)`, the universe cell `(0, 1)` (level
`0` observed for the first factor, level `1` for the second) has zero
observations but is an ABSENT key of the bootstrap result, not a row of
`n_boot` no-data markers. -/
theorem bootstrap_missing_universe_cell_counterexample :
    ((0, 1) : ℕ × ℕ) ∈ levelUniverse rowsC6 ∧
    ((0, 1) : ℕ × ℕ) ∉
      (bootstrap_cell_statistics (byKey fun p : ℕ × ℕ => ((p.1 : ℚ), (p.2 : ℚ)))
        rowsC6 (fun l => l.sum) 3 (fun _ _ _ => 0)).map Prod.fst := by
  constructor
  · decide
  · have h : (bootstrap_cell_statistics
        (byKey fun p : ℕ × ℕ => ((p.1 : ℚ), (p.2 : ℚ)))
        rowsC6 (fun l => l.sum) 3 (fun _ _ _ => 0)).map Prod.fst =
        [(0, 0), (1, 1)] := by
      unfold bootstrap_cell_statistics
      rw [bootstrapCellStatisticsAux_keys, groupby_keys]
      rfl
    rw [h]
    decide

/-! ### Bootstrap confidence intervals (claim C5) -/

theorem ratFloor_eq_intFloor (q : ℚ) : q.floor = ⌊q⌋ := by
  rw [Rat.floor_def', Rat.floor_def]

theorem getD_replicate {α : Type} (d c : α) :
    ∀ (n i : ℕ), i < n → (List.replicate n c).getD i d = c
  | 0, i, h => absurd h (Nat.not_lt_zero i)
  | _ + 1, 0, _ => rfl
  | n + 1, i + 1, h => getD_replicate d c n i (Nat.lt_of_succ_lt_succ h)

theorem insertionSort_replicate (n : ℕ) (c : ℚ) :
    (List.replicate n c).insertionSort (· ≤ ·) = List.replicate n c :=
  List.Sorted.insertionSort_eq (List.pairwise_replicate.2 (Or.inr (le_refl c)))

theorem npPercentile_replicate (n : ℕ) (c q : ℚ) (hn : 0 < n)
    (h0 : 0 ≤ q * ((n : ℚ) - 1) / 100) (hlt : q * ((n : ℚ) - 1) / 100 < (n : ℚ)) :
    npPercentile (List.replicate n c) q = c := by
  simp only [npPercentile, insertionSort_replicate, List.length_replicate]
  rw [if_neg (Nat.pos_iff_ne_zero.1 hn)]
  have hfl : (0 : ℤ) ≤ (q * ((n : ℚ) - 1) / 100).floor := by
    rw [ratFloor_eq_intFloor]
    exact Int.floor_nonneg.2 h0
  have hflt : (q * ((n : ℚ) - 1) / 100).floor < (n : ℤ) := by
    rw [ratFloor_eq_intFloor]
    refine Int.floor_lt.2 ?_
    exact_mod_cast hlt
  have hi : (q * ((n : ℚ) - 1) / 100).floor.toNat < n := by omega
  have hmin : min ((q * ((n : ℚ) - 1) / 100).floor.toNat + 1) (n - 1) < n := by omega
  rw [getD_replicate _ _ _ _ hi, getD_replicate _ _ _ _ hmin]
  ring

/-- Claim C5, evidence of the code bug: the `"se"` branch of
`compute_bootstrap_ci` computes its critical value `z` from the ambient
(global, unseeded) NumPy normal draws rather than analytically, so two
invocations with identical replicate table and alpha produce different
results under different ambient generator states (here: all draws `1`
versus all draws `2`). -/
theorem compute_bootstrap_ci_se_ambient_dependent :
    compute_bootstrap_ci bootC5 (1 / 20) "se" drawsOne =
      Except.ok [(0, ⟨some 2, some 1, some 1, some 3⟩)] ∧
    compute_bootstrap_ci bootC5 (1 / 20) "se" drawsTwo =
      Except.ok [(0, ⟨some 2, some 1, some 0, some 4⟩)] ∧
    compute_bootstrap_ci bootC5 (1 / 20) "se" drawsOne ≠
      compute_bootstrap_ci bootC5 (1 / 20) "se" drawsTwo := by
  have hq0 : (0 : ℚ) ≤ 100 * (1 - (1 / 20) / 2) * ((100000 : ℚ) - 1) / 100 := by
    norm_num
  have hqn : 100 * (1 - (1 / 20) / 2) * ((100000 : ℚ) - 1) / 100 < (100000 : ℚ) := by
    norm_num
  have hz1 : npPercentile drawsOne (100 * (1 - (1 / 20) / 2)) = 1 :=
    npPercentile_replicate 100000 1 _ (by norm_num) hq0 hqn
  have hz2 : npPercentile drawsTwo (100 * (1 - (1 / 20) / 2)) = 2 :=
    npPercentile_replicate 100000 2 _ (by norm_num) hq0 hqn
  have hmean : fmeanList [some 1, some 2, some (3 : ℚ)] = some 2 := by
    simp [fmeanList]
    norm_num
  have hsqrt : Rat.sqrt 1 = 1 := by decide
  have hstd : sampleStd [some 1, some 2, some (3 : ℚ)] = some 1 := by
    have hxs : List.filterMap id [some 1, some 2, some (3 : ℚ)] = [1, 2, 3] := rfl
    simp only [sampleStd, hxs, List.map_cons, List.map_nil, List.sum_cons,
      List.sum_nil, List.length_cons, List.length_nil]
    norm_num [hsqrt]
  have h1 : compute_bootstrap_ci bootC5 (1 / 20) "se" drawsOne =
      Except.ok [(0, ⟨some 2, some 1, some 1, some 3⟩)] := by
    unfold compute_bootstrap_ci
    rw [if_neg (by decide), if_neg (by decide), if_pos rfl]
    simp only [bootC5, List.map_cons, List.map_nil, hz1]
    rw [hmean, hstd]
    simp [fsub, fadd, fscale]
    norm_num
  have h2 : compute_bootstrap_ci bootC5 (1 / 20) "se" drawsTwo =
      Except.ok [(0, ⟨some 2, some 1, some 0, some 4⟩)] := by
    unfold compute_bootstrap_ci
    rw [if_neg (by decide), if_neg (by decide), if_pos rfl]
    simp only [bootC5, List.map_cons, List.map_nil, hz2]
    rw [hmean, hstd]
    simp [fsub, fadd, fscale]
    norm_num
  refine ⟨h1, h2, ?_⟩
  rw [h1, h2]
  intro h
  simp only [Except.ok.injEq, List.cons.injEq, Prod.mk.injEq, CIRow.mk.injEq] at h
  have h10 : (1 : ℚ) = 0 := Option.some.inj h.1.2.2.2.1
  norm_num at h10

/-! ### Stable sorting: `List.insertionSort` commutes with `filter`

Python's `sorted` is stable; `List.insertionSort` is the stable sort by the
same relation, so the two agree on every input.  The lemmas below let the
greedy selector's sort-then-skip-NaN loop be rewritten as the spec's
filter-then-sort procedure. -/

theorem orderedInsert_of_forall_rel {α : Type} (r : α → α → Prop) [DecidableRel r]
    {a : α} {l : List α} (h : ∀ x ∈ l, r a x) : l.orderedInsert r a = a :: l := by
  cases l with
  | nil => rfl
  | cons y l => exact List.orderedInsert_of_le r l (h y (List.mem_cons_self y l))

theorem filter_orderedInsert {α : Type} (r : α → α → Prop) [DecidableRel r]
    [IsTrans α r] (p : α → Bool) (a : α) :
    ∀ l : List α, l.Sorted r →
      (l.orderedInsert r a).filter p =
        if p a then (l.filter p).orderedInsert r a else l.filter p := by
  intro l
  induction l with
  | nil =>
    intro _
    by_cases hpa : p a <;> simp [List.orderedInsert, List.filter_cons, hpa]
  | cons b l ih =>
    intro hs
    by_cases hab : r a b
    · rw [List.orderedInsert_of_le r l hab]
      by_cases hpa : p a
      · rw [if_pos hpa, List.filter_cons, if_pos hpa]
        have hall : ∀ x ∈ (b :: l).filter p, r a x := by
          intro x hx
          have hx2 : x ∈ b :: l := List.mem_of_mem_filter hx
          rcases List.mem_cons.1 hx2 with rfl | hx3
          · exact hab
          · exact @IsTrans.trans α r _ a b x hab (List.rel_of_sorted_cons hs x hx3)
        rw [orderedInsert_of_forall_rel r hall]
      · rw [if_neg hpa, List.filter_cons, if_neg hpa]
    · have hins : (b :: l).orderedInsert r a = b :: l.orderedInsert r a := by
        simp [List.orderedInsert, hab]
      rw [hins, List.filter_cons, List.filter_cons]
      by_cases hpb : p b
      · rw [if_pos hpb, if_pos hpb, ih hs.of_cons]
        by_cases hpa : p a
        · rw [if_pos hpa, if_pos hpa]
          have hins2 : (b :: l.filter p).orderedInsert r a =
              b :: (l.filter p).orderedInsert r a := by
            simp [List.orderedInsert, hab]
          rw [hins2]
        · rw [if_neg hpa, if_neg hpa]
      · rw [if_neg hpb, if_neg hpb, ih hs.of_cons]

theorem filter_insertionSort {α : Type} (r : α → α → Prop) [DecidableRel r]
    [IsTotal α r] [IsTrans α r] (p : α → Bool) :
    ∀ l : List α, (l.insertionSort r).filter p = (l.filter p).insertionSort r := by
  intro l
  induction l with
  | nil => rfl
  | cons a l ih =>
    show ((l.insertionSort r).orderedInsert r a).filter p =
      ((a :: l).filter p).insertionSort r
    rw [filter_orderedInsert r p a _ (List.sorted_insertionSort r l), ih,
      List.filter_cons]
    by_cases hpa : p a
    · rw [if_pos hpa, if_pos hpa]
      rfl
    · rw [if_neg hpa, if_neg hpa]

/-! ### The greedy selector refines the spec procedure (claim C3) -/

theorem filterMap_toScored_eq {A B : Type} (l : List (A × B × FVal × ℚ)) :
    (l.filterMap fun x => x.2.2.1.map fun v => (x.1, x.2.1, v, x.2.2.2)) =
      (l.filter fun x => x.2.2.1.isSome).map
        fun x => (x.1, x.2.1, x.2.2.1.getD 0, x.2.2.2) := by
  induction l with
  | nil => rfl
  | cons x l ih =>
    obtain ⟨a, b, v, c⟩ := x
    cases v with
    | none => simpa [List.filterMap_cons, List.filter_cons] using ih
    | some w => simp [List.filterMap_cons, List.filter_cons, ih]

theorem greedyScan_cons_some {A B : Type} (budget : WithTop ℚ) (a : A) (b : B)
    (w c : ℚ) (rest : List (A × B × FVal × ℚ)) (tc : ℚ) :
    greedyScan budget ((a, b, some w, c) :: rest) tc =
      if ((tc + c : ℚ) : WithTop ℚ) ≤ budget then
        ((a, b) :: (greedyScan budget rest (tc + c)).1,
          (greedyScan budget rest (tc + c)).2)
      else greedyScan budget rest tc := rfl

theorem greedyScan_cons_none {A B : Type} (budget : WithTop ℚ) (a : A) (b : B)
    (c : ℚ) (rest : List (A × B × FVal × ℚ)) (tc : ℚ) :
    greedyScan budget ((a, b, none, c) :: rest) tc = greedyScan budget rest tc := rfl

theorem greedyScan_nil {A B : Type} (budget : WithTop ℚ) (tc : ℚ) :
    greedyScan budget ([] : List (A × B × FVal × ℚ)) tc = ([], tc) := rfl

theorem specScan_cons {A B : Type} (budget : WithTop ℚ) (a : A) (b : B)
    (w c : ℚ) (rest : List (A × B × ℚ × ℚ)) (tc : ℚ) :
    specScan budget ((a, b, w, c) :: rest) tc =
      if ((tc + c : ℚ) : WithTop ℚ) ≤ budget then
        ((a, b) :: (specScan budget rest (tc + c)).1,
          (specScan budget rest (tc + c)).2)
      else specScan budget rest tc := rfl

theorem greedyScan_eq_specScan {A B : Type} (budget : WithTop ℚ) :
    ∀ (l : List (A × B × FVal × ℚ)) (tc : ℚ),
      greedyScan budget l tc =
        specScan budget
          (l.filterMap fun x => x.2.2.1.map fun v => (x.1, x.2.1, v, x.2.2.2)) tc := by
  intro l
  induction l with
  | nil => intro tc; rfl
  | cons x l ih =>
    intro tc
    obtain ⟨a, b, v, c⟩ := x
    cases v with
    | none =>
      rw [List.filterMap_cons]
      simpa [greedyScan_cons_none] using ih tc
    | some w =>
      rw [List.filterMap_cons]
      show greedyScan budget ((a, b, some w, c) :: l) tc =
        specScan budget ((a, b, w, c) ::
          (l.filterMap fun x => x.2.2.1.map fun v => (x.1, x.2.1, v, x.2.2.2))) tc
      rw [greedyScan_cons_some, specScan_cons, ih (tc + c), ih tc]

theorem greedy_select_eq_specProcedure {A B : Type} [DecidableEq A] [DecidableEq B]
    (score : Table A B) (cost : Option (CTable A B)) (budget : WithTop ℚ) :
    greedy_select_under_budget score cost budget =
      greedySpecProcedure score cost budget := by
  show greedyScan budget
      ((greedyFlat score (cost.getD ⟨score.rows, score.cols, fun _ _ => 1⟩)).insertionSort
        (byKey greedyKey)) 0 =
    specScan budget
      (((greedyFlat score (cost.getD ⟨score.rows, score.cols, fun _ _ => 1⟩)).filterMap
          fun x => x.2.2.1.map fun v => (x.1, x.2.1, v, x.2.2.2)).insertionSort
        (byKey fun x => (-x.2.2.1, x.2.2.2))) 0
  rw [greedyScan_eq_specScan]
  refine congrArg (fun l => specScan budget l 0) ?_
  rw [filterMap_toScored_eq,
    filter_insertionSort (byKey greedyKey) (fun x => x.2.2.1.isSome),
    filterMap_toScored_eq]
  exact List.map_insertionSort _ _ _ _ (fun a _ b _ => Iff.rfl)

theorem greedyFlat_scoreC3 :
    greedyFlat scoreC3 ⟨scoreC3.rows, scoreC3.cols, fun _ _ => 1⟩ =
      [(0, 0, some 10, 1), (0, 1, some 8, 1), (1, 0, some 6, 1),
        (1, 1, some 4, 1), (2, 0, some 2, 1), (2, 1, some 1, 1)] := rfl

theorem scoreC3_flat_sorted :
    ([(0, 0, some 10, 1), (0, 1, some 8, 1), (1, 0, some 6, 1),
        (1, 1, some 4, 1), (2, 0, some 2, 1),
        ((2 : ℕ), (1 : ℕ), some (1 : ℚ), (1 : ℚ))] :
        List (ℕ × ℕ × FVal × ℚ)).insertionSort (byKey greedyKey) =
      [(0, 0, some 10, 1), (0, 1, some 8, 1), (1, 0, some 6, 1),
        (1, 1, some 4, 1), (2, 0, some 2, 1), (2, 1, some 1, 1)] := by
  refine List.Sorted.insertionSort_eq ?_
  simp [List.Sorted, List.pairwise_cons, byKey, lexQLe, greedyKey]
  norm_num

theorem scoreC3_scan :
    greedyScan ((2 : ℚ) : WithTop ℚ)
      ([(0, 0, some 10, 1), (0, 1, some 8, 1), (1, 0, some 6, 1),
        (1, 1, some 4, 1), (2, 0, some 2, 1),
        ((2 : ℕ), (1 : ℕ), some (1 : ℚ), (1 : ℚ))] :
        List (ℕ × ℕ × FVal × ℚ)) 0 = ([(0, 0), (0, 1)], 2) := by
  have h1 : ((0 + 1 : ℚ) : WithTop ℚ) ≤ ((2 : ℚ) : WithTop ℚ) := by
    rw [WithTop.coe_le_coe]
    norm_num
  have h2 : ((0 + 1 + 1 : ℚ) : WithTop ℚ) ≤ ((2 : ℚ) : WithTop ℚ) := by
    rw [WithTop.coe_le_coe]
    norm_num
  have h3 : ¬((0 + 1 + 1 + 1 : ℚ) : WithTop ℚ) ≤ ((2 : ℚ) : WithTop ℚ) := by
    rw [WithTop.coe_le_coe]
    norm_num
  rw [greedyScan_cons_some, if_pos h1, greedyScan_cons_some, if_pos h2,
    greedyScan_cons_some, if_neg h3, greedyScan_cons_some, if_neg h3,
    greedyScan_cons_some, if_neg h3, greedyScan_cons_some, if_neg h3,
    greedyScan_nil]
  norm_num

/-- Claim C3: `greedy_select_under_budget` behaves exactly as the spec
describes — it is equal, on every input, to the procedure that sorts the
non-no-data cells by descending score with ties broken by ascending cost and
then scans them, accepting each cell whose cost fits the remaining budget
and skipping (not stopping at) cells that would exceed it.  On the spec's
example (scores `[[10,8],[6,4],[2,1]]`, uniform cost `1`, budget `2`) it
selects exactly the two cells `(A1,B1), (A1,B2)` with total cost `2` and
total score `18`, which is maximal over all 2-cell subsets. -/
theorem greedy_select_spec_and_example :
    (∀ {A B : Type} [DecidableEq A] [DecidableEq B] (score : Table A B)
        (cost : Option (CTable A B)) (budget : WithTop ℚ),
      greedy_select_under_budget score cost budget =
        greedySpecProcedure score cost budget) ∧
    greedy_select_under_budget scoreC3 none ((2 : ℚ) : WithTop ℚ) =
      ([(0, 0), (0, 1)], 2) ∧
    lsum [((0 : ℕ), (0 : ℕ)), (0, 1)] (fun ab => entQ scoreC3 ab.1 ab.2) = 18 ∧
    (∀ s ∈ combinations 2 scoreC3.cells,
      lsum s (fun ab => entQ scoreC3 ab.1 ab.2) ≤ 18) := by
  refine ⟨fun score cost budget => greedy_select_eq_specProcedure score cost budget,
    ?_, ?_, ?_⟩
  · show greedyScan ((2 : ℚ) : WithTop ℚ)
        ((greedyFlat scoreC3 ⟨scoreC3.rows, scoreC3.cols, fun _ _ => 1⟩).insertionSort
          (byKey greedyKey)) 0 = ([(0, 0), (0, 1)], 2)
    rw [greedyFlat_scoreC3, scoreC3_flat_sorted, scoreC3_scan]
  · norm_num [lsum, entQ, scoreC3]
  · intro s hs
    have hc : combinations 2 scoreC3.cells =
        [[(0, 0), (0, 1)], [(0, 0), (1, 0)], [(0, 0), (1, 1)], [(0, 0), (2, 0)],
          [(0, 0), (2, 1)], [(0, 1), (1, 0)], [(0, 1), (1, 1)], [(0, 1), (2, 0)],
          [(0, 1), (2, 1)], [(1, 0), (1, 1)], [(1, 0), (2, 0)], [(1, 0), (2, 1)],
          [(1, 1), (2, 0)], [(1, 1), (2, 1)], [(2, 0), (2, 1)]] := rfl
    rw [hc] at hs
    fin_cases hs <;> norm_num [lsum, entQ, scoreC3]

/-! ### Exhaustive search (claim C7) -/

theorem mem_combinations {γ : Type} :
    ∀ (k : ℕ) (l : List γ) (c : List γ),
      c ∈ combinations k l ↔ (c.length = k ∧ c.Sublist l) := by
  intro k l
  induction l generalizing k with
  | nil =>
    intro c
    cases k with
    | zero =>
      show c ∈ [[]] ↔ _
      simp [List.length_eq_zero, List.sublist_nil, and_self]
    | succ k =>
      show c ∈ [] ↔ _
      simp only [List.not_mem_nil, false_iff]
      rintro ⟨hl, hs⟩
      rw [List.sublist_nil.1 hs] at hl
      simp at hl
  | cons x xs ih =>
    intro c
    cases k with
    | zero =>
      show c ∈ [[]] ↔ _
      constructor
      · intro hc
        rw [List.mem_singleton.1 hc]
        exact ⟨rfl, List.nil_sublist _⟩
      · rintro ⟨hl, _⟩
        rw [List.length_eq_zero.1 hl]
        exact List.mem_singleton.2 rfl
    | succ k =>
      show c ∈ ((combinations k xs).map fun d => x :: d) ++ combinations (k + 1) xs ↔ _
      rw [List.mem_append, List.mem_map]
      constructor
      · rintro (⟨d, hd, rfl⟩ | h)
        · obtain ⟨hl, hs⟩ := (ih k d).1 hd
          exact ⟨by simp [hl], List.Sublist.cons₂ x hs⟩
        · obtain ⟨hl, hs⟩ := (ih (k + 1) c).1 h
          exact ⟨hl, hs.cons x⟩
      · rintro ⟨hl, hs⟩
        cases hs with
        | cons _ h =>
          exact Or.inr ((ih (k + 1) c).2 ⟨hl, h⟩)
        | cons₂ _ h =>
          rename_i c1
          exact Or.inl ⟨c1, (ih k c1).2 ⟨by simpa using hl, h⟩, rfl⟩

theorem combinations_eq_nil_of_length_lt {γ : Type} (k : ℕ) (l : List γ)
    (h : l.length < k) : combinations k l = [] := by
  rw [List.eq_nil_iff_forall_not_mem]
  intro c hc
  obtain ⟨hl, hs⟩ := (mem_combinations k l c).1 hc
  have := hs.length_le
  omega

theorem foldl_exhaustiveStep_eq_pickMax (budget : WithTop ℚ) :
    ∀ (L : List (List ((A × B) × ℚ × ℚ))) (acc : Option (List (A × B) × ℚ)),
      L.foldl (exhaustiveStep budget) acc =
        (L.filter fun c => decide ((combCost c : WithTop ℚ) ≤ budget)).foldl
          pickMax acc := by
  intro L
  induction L with
  | nil => intro acc; rfl
  | cons c L ih =>
    intro acc
    rw [List.foldl_cons, List.filter_cons]
    by_cases hc : (combCost c : WithTop ℚ) ≤ budget
    · rw [if_pos (by simpa using hc), List.foldl_cons, ih]
      have hstep : exhaustiveStep budget acc c = pickMax acc c := by
        unfold exhaustiveStep pickMax
        rw [if_pos hc]
      rw [hstep]
    · rw [if_neg (by simpa using hc), ih]
      have hstep : exhaustiveStep budget acc c = acc := by
        unfold exhaustiveStep
        rw [if_neg hc]
      rw [hstep]

theorem foldl_pickMax_some :
    ∀ (L : List (List ((A × B) × ℚ × ℚ))) (bb : List (A × B) × ℚ),
      (L.foldl pickMax (some bb) = some bb ∧ ∀ c ∈ L, combScore c ≤ bb.2) ∨
      (∃ L1 c0 L2, L = L1 ++ c0 :: L2 ∧ bb.2 < combScore c0 ∧
        L.foldl pickMax (some bb) = some (c0.map fun it => it.1, combScore c0) ∧
        (∀ c ∈ L1, combScore c < combScore c0) ∧
        (∀ c ∈ L2, combScore c ≤ combScore c0)) := by
  intro L
  induction L with
  | nil =>
    intro bb
    exact Or.inl ⟨rfl, fun c hc => absurd hc (List.not_mem_nil c)⟩
  | cons c L ih =>
    intro bb
    rw [List.foldl_cons]
    by_cases hc : bb.2 < combScore c
    · have hstep : pickMax (some bb) c = some (c.map fun it => it.1, combScore c) := by
        show (if bb.2 < combScore c then some (c.map fun it => it.1, combScore c)
          else some bb) = _
        rw [if_pos hc]
      rw [hstep]
      rcases ih (c.map fun it => it.1, combScore c) with ⟨heq, hle⟩ |
        ⟨L1, c0, L2, rfl, hlt, heq, h1, h2⟩
      · exact Or.inr ⟨[], c, L, rfl, hc, heq,
          fun d hd => absurd hd (List.not_mem_nil d), hle⟩
      · refine Or.inr ⟨c :: L1, c0, L2, rfl, lt_trans hc hlt, heq, ?_, h2⟩
        intro d hd
        rcases List.mem_cons.1 hd with rfl | hd2
        · exact hlt
        · exact h1 d hd2
    · have hstep : pickMax (some bb) c = some bb := by
        show (if bb.2 < combScore c then some (c.map fun it => it.1, combScore c)
          else some bb) = _
        rw [if_neg hc]
      rw [hstep]
      rcases ih bb with ⟨heq, hle⟩ | ⟨L1, c0, L2, rfl, hlt, heq, h1, h2⟩
      · refine Or.inl ⟨heq, ?_⟩
        intro d hd
        rcases List.mem_cons.1 hd with rfl | hd2
        · exact not_lt.1 hc
        · exact hle d hd2
      · refine Or.inr ⟨c :: L1, c0, L2, rfl, hlt, heq, ?_, h2⟩
        intro d hd
        rcases List.mem_cons.1 hd with rfl | hd2
        · exact lt_of_le_of_lt (not_lt.1 hc) hlt
        · exact h1 d hd2

theorem foldl_pickMax_none :
    ∀ (L : List (List ((A × B) × ℚ × ℚ))), L ≠ [] →
      ∃ L1 c0 L2, L = L1 ++ c0 :: L2 ∧
        L.foldl pickMax (none : Option (List (A × B) × ℚ)) =
          some (c0.map fun it => it.1, combScore c0) ∧
        (∀ c ∈ L1, combScore c < combScore c0) ∧
        (∀ c ∈ L2, combScore c ≤ combScore c0) := by
  intro L hL
  cases L with
  | nil => exact absurd rfl hL
  | cons c L =>
    rw [List.foldl_cons]
    have hstep : pickMax (none : Option (List (A × B) × ℚ)) c =
        some (c.map fun it => it.1, combScore c) := rfl
    rw [hstep]
    rcases foldl_pickMax_some L (c.map fun it => it.1, combScore c) with
      ⟨heq, hle⟩ | ⟨L1, c0, L2, rfl, hlt, heq, h1, h2⟩
    · exact ⟨[], c, L, rfl, heq, fun d hd => absurd hd (List.not_mem_nil d), hle⟩
    · refine ⟨c :: L1, c0, L2, rfl, heq, ?_, h2⟩
      intro d hd
      rcases List.mem_cons.1 hd with rfl | hd2
      · exact hlt
      · exact h1 d hd2

/-- Claim C7: `exhaustive_best_k` enumerates exactly the length-`k`
subsequences of the non-no-data candidate list (in `itertools` order),
returns a feasible combination of maximum total score when one exists — the
first one attaining the maximum in enumeration order — and returns the empty
selection with zero scalar, rather than raising, both when no combination
fits the budget and when `k` exceeds the candidate count. -/
theorem exhaustive_best_k_spec (score : Table A B) (cost : Option (CTable A B))
    (k : ℕ) (budget : WithTop ℚ) :
    (∀ c : List ((A × B) × ℚ × ℚ),
      c ∈ combinations k (exhaustiveFlat score cost) ↔
        (c.length = k ∧ c.Sublist (exhaustiveFlat score cost))) ∧
    (∀ comb ∈ combinations k (exhaustiveFlat score cost),
      (combCost comb : WithTop ℚ) ≤ budget →
      combScore comb ≤ (exhaustive_best_k score cost k budget).2) ∧
    (((combinations k (exhaustiveFlat score cost)).filter
        (fun c => decide ((combCost c : WithTop ℚ) ≤ budget))) = [] →
      exhaustive_best_k score cost k budget = ([], 0)) ∧
    ((exhaustiveFlat score cost).length < k →
      exhaustive_best_k score cost k budget = ([], 0)) ∧
    (((combinations k (exhaustiveFlat score cost)).filter
        (fun c => decide ((combCost c : WithTop ℚ) ≤ budget))) ≠ [] →
      ∃ L1 c0 L2,
        ((combinations k (exhaustiveFlat score cost)).filter
          (fun c => decide ((combCost c : WithTop ℚ) ≤ budget))) = L1 ++ c0 :: L2 ∧
        exhaustive_best_k score cost k budget =
          (c0.map fun it => it.1, combScore c0) ∧
        (∀ c ∈ L1, combScore c < combScore c0) ∧
        (∀ c ∈ L2, combScore c ≤ combScore c0)) := by
  have hfold := foldl_exhaustiveStep_eq_pickMax budget
    (combinations k (exhaustiveFlat score cost)) none
  refine ⟨mem_combinations k (exhaustiveFlat score cost), ?_, ?_, ?_, ?_⟩
  · intro comb hcomb hfeas
    have hmem : comb ∈ (combinations k (exhaustiveFlat score cost)).filter
        (fun c => decide ((combCost c : WithTop ℚ) ≤ budget)) :=
      List.mem_filter.2 ⟨hcomb, by simpa using hfeas⟩
    have hne : (combinations k (exhaustiveFlat score cost)).filter
        (fun c => decide ((combCost c : WithTop ℚ) ≤ budget)) ≠ [] := by
      intro h
      rw [h] at hmem
      exact absurd hmem (List.not_mem_nil comb)
    obtain ⟨L1, c0, L2, hsplit, heq, h1, h2⟩ := foldl_pickMax_none _ hne
    have hres : exhaustive_best_k score cost k budget =
        (c0.map fun it => it.1, combScore c0) := by
      unfold exhaustive_best_k
      rw [hfold, heq]
    rw [hres]
    rw [hsplit] at hmem
    rcases List.mem_append.1 hmem with hin1 | hin2
    · exact le_of_lt (h1 comb hin1)
    · rcases List.mem_cons.1 hin2 with rfl | hin3
      · exact le_refl _
      · exact h2 comb hin3
  · intro hempty
    unfold exhaustive_best_k
    rw [hfold, hempty]
    rfl
  · intro hk
    unfold exhaustive_best_k
    rw [combinations_eq_nil_of_length_lt k _ hk]
    rfl
  · intro hne
    obtain ⟨L1, c0, L2, hsplit, heq, h1, h2⟩ := foldl_pickMax_none _ hne
    refine ⟨L1, c0, L2, hsplit, ?_, h1, h2⟩
    unfold exhaustive_best_k
    rw [hfold, heq]

/-! ### The scalar accompanying each selection (claim C4) -/

theorem mem_greedyFlat_cost [DecidableEq A] [DecidableEq B] (score : Table A B)
    (cost : CTable A B) :
    ∀ x ∈ greedyFlat score cost, x.2.2.2 = effCost cost x.1 x.2.1 := by
  intro x hx
  unfold greedyFlat at hx
  rw [List.mem_flatMap] at hx
  obtain ⟨a, _, hx2⟩ := hx
  rw [List.mem_map] at hx2
  obtain ⟨b, _, rfl⟩ := hx2
  rfl

theorem greedyScan_total_cost [DecidableEq A] [DecidableEq B] (cost : CTable A B)
    (budget : WithTop ℚ) :
    ∀ (l : List (A × B × FVal × ℚ)) (tc : ℚ),
      (∀ x ∈ l, x.2.2.2 = effCost cost x.1 x.2.1) →
      (greedyScan budget l tc).2 =
        tc + lsum (greedyScan budget l tc).1 (fun ab => effCost cost ab.1 ab.2) := by
  intro l
  induction l with
  | nil =>
    intro tc _
    rw [greedyScan_nil, lsum_nil]
    ring
  | cons x l ih =>
    intro tc hcons
    obtain ⟨a, b, v, c⟩ := x
    have hc : c = effCost cost a b := hcons (a, b, v, c) (List.mem_cons_self _ _)
    cases v with
    | none =>
      rw [greedyScan_cons_none]
      exact ih tc fun y hy => hcons y (List.mem_cons_of_mem _ hy)
    | some w =>
      rw [greedyScan_cons_some]
      by_cases hb : ((tc + c : ℚ) : WithTop ℚ) ≤ budget
      · rw [if_pos hb]
        show (greedyScan budget l (tc + c)).2 =
          tc + lsum ((a, b) :: (greedyScan budget l (tc + c)).1)
            (fun ab => effCost cost ab.1 ab.2)
        rw [lsum_cons, ih (tc + c) fun y hy => hcons y (List.mem_cons_of_mem _ hy), hc]
        ring
      · rw [if_neg hb]
        exact ih tc fun y hy => hcons y (List.mem_cons_of_mem _ hy)

theorem greedy_scalar_is_cost [DecidableEq A] [DecidableEq B] (score : Table A B)
    (cost : Option (CTable A B)) (budget : WithTop ℚ) :
    (greedy_select_under_budget score cost budget).2 =
      lsum (greedy_select_under_budget score cost budget).1
        (fun ab => effCost (cost.getD ⟨score.rows, score.cols, fun _ _ => 1⟩) ab.1 ab.2) := by
  have h := greedyScan_total_cost (cost.getD ⟨score.rows, score.cols, fun _ _ => 1⟩) budget
    ((greedyFlat score (cost.getD ⟨score.rows, score.cols, fun _ _ => 1⟩)).insertionSort
      (byKey greedyKey)) 0
    (fun x hx => mem_greedyFlat_cost score _ x ((List.mem_insertionSort _).1 hx))
  rw [zero_add] at h
  exact h

theorem mem_exhaustiveFlat_score (score : Table A B) (cost : Option (CTable A B)) :
    ∀ it ∈ exhaustiveFlat score cost, it.2.1 = entQ score it.1.1 it.1.2 := by
  intro it hit
  unfold exhaustiveFlat at hit
  rw [List.mem_filterMap] at hit
  obtain ⟨x, hx, hmap⟩ := hit
  rw [List.mem_flatMap] at hx
  obtain ⟨a, _, hx2⟩ := hx
  rw [List.mem_map] at hx2
  obtain ⟨b, _, rfl⟩ := hx2
  cases hv : score.entry a b with
  | none =>
    rw [show ((a, b), score.entry a b,
        match cost with | none => 1 | some c => c.entry a b).2.1 = score.entry a b
      from rfl, hv] at hmap
    simp at hmap
  | some w =>
    rw [show ((a, b), score.entry a b,
        match cost with | none => 1 | some c => c.entry a b).2.1 = score.entry a b
      from rfl, hv] at hmap
    rw [← Option.some.inj hmap]
    show w = entQ score a b
    unfold entQ
    rw [hv]
    rfl

theorem exhaustive_scalar_is_score (score : Table A B) (cost : Option (CTable A B))
    (k : ℕ) (budget : WithTop ℚ) :
    (exhaustive_best_k score cost k budget).2 =
      lsum (exhaustive_best_k score cost k budget).1
        (fun ab => entQ score ab.1 ab.2) := by
  unfold exhaustive_best_k
  rw [foldl_exhaustiveStep_eq_pickMax]
  by_cases hne : (combinations k (exhaustiveFlat score cost)).filter
      (fun c => decide ((combCost c : WithTop ℚ) ≤ budget)) = []
  · rw [hne]
    show (0 : ℚ) = lsum ([] : List (A × B)) fun ab => entQ score ab.1 ab.2
    rw [lsum_nil]
  · obtain ⟨L1, c0, L2, hsplit, heq, _, _⟩ := foldl_pickMax_none _ hne
    rw [heq]
    show combScore c0 = lsum (c0.map fun it => it.1) fun ab => entQ score ab.1 ab.2
    have hc0 : c0 ∈ (combinations k (exhaustiveFlat score cost)).filter
        (fun c => decide ((combCost c : WithTop ℚ) ≤ budget)) := by
      rw [hsplit]
      exact List.mem_append_right _ (List.mem_cons_self _ _)
    have hcomb : c0 ∈ combinations k (exhaustiveFlat score cost) :=
      (List.mem_filter.1 hc0).1
    have hsub := ((mem_combinations _ _ c0).1 hcomb).2
    rw [lsum_map]
    refine lsum_congr fun it hit => ?_
    exact mem_exhaustiveFlat_score score cost it (hsub.subset hit)

theorem beamBestUpd_cons (best e : BeamEntry A B) (l : List (BeamEntry A B)) :
    beamBestUpd best (e :: l) =
      beamBestUpd (if best.ssum < e.ssum then e else best) l := rfl

theorem foldl_best_shape :
    ∀ (l : List (BeamEntry A B)) (best : BeamEntry A B),
      beamBestUpd best l = best ∨ beamBestUpd best l ∈ l := by
  intro l
  induction l with
  | nil => intro best; exact Or.inl rfl
  | cons e l ih =>
    intro best
    rw [beamBestUpd_cons]
    by_cases h : best.ssum < e.ssum
    · rw [if_pos h]
      rcases ih e with h2 | h2
      · rw [h2]
        exact Or.inr (List.mem_cons_self e l)
      · exact Or.inr (List.mem_cons_of_mem _ h2)
    · rw [if_neg h]
      rcases ih best with h2 | h2
      · exact Or.inl h2
      · exact Or.inr (List.mem_cons_of_mem _ h2)

theorem expandEntry_mem [DecidableEq A] [DecidableEq B]
    (cands : List ((A × B) × ℚ × ℚ)) (budget : WithTop ℚ) (e e2 : BeamEntry A B)
    (h : e2 ∈ expandEntry cands budget e) :
    ∃ cand ∈ cands, cand.1 ∉ e.sel ∧ ((e.csum + cand.2.2 : ℚ) : WithTop ℚ) ≤ budget ∧
      e2 = ⟨e.sel ++ [cand.1], e.ssum + cand.2.1, e.csum + cand.2.2⟩ := by
  unfold expandEntry at h
  rw [List.mem_filterMap] at h
  obtain ⟨cand, hcand, hmap⟩ := h
  by_cases h1 : cand.1 ∈ e.sel
  · rw [if_pos h1] at hmap
    simp at hmap
  · rw [if_neg h1] at hmap
    by_cases h2 : ((e.csum + cand.2.2 : ℚ) : WithTop ℚ) ≤ budget
    · rw [if_pos h2] at hmap
      exact ⟨cand, hcand, h1, h2, (Option.some.inj hmap).symm⟩
    · rw [if_neg h2] at hmap
      simp at hmap

theorem beamLoop_succ [DecidableEq A] [DecidableEq B]
    (cands : List ((A × B) × ℚ × ℚ)) (budget : WithTop ℚ) (bw n : ℕ)
    (beam : List (BeamEntry A B)) (best : BeamEntry A B) :
    beamLoop cands budget bw (n + 1) beam best =
      if (beam.flatMap (expandEntry cands budget)).isEmpty then best
      else
        beamLoop cands budget bw n
          (((beam.flatMap (expandEntry cands budget)).insertionSort
            (byKey fun e => (-e.ssum, 0))).take bw)
          (beamBestUpd best (beam.flatMap (expandEntry cands budget))) := rfl

theorem beamLoop_scalar [DecidableEq A] [DecidableEq B]
    (cands : List ((A × B) × ℚ × ℚ)) (budget : WithTop ℚ) (bw : ℕ)
    (f : A × B → ℚ) (hc : ∀ cand ∈ cands, cand.2.1 = f cand.1) :
    ∀ (n : ℕ) (beam : List (BeamEntry A B)) (best : BeamEntry A B),
      (∀ e ∈ beam, e.ssum = lsum e.sel f) →
      best.ssum = lsum best.sel f →
      (beamLoop cands budget bw n beam best).ssum =
        lsum (beamLoop cands budget bw n beam best).sel f := by
  intro n
  induction n with
  | zero =>
    intro beam best _ hbest
    exact hbest
  | succ n ih =>
    intro beam best hbeam hbest
    rw [beamLoop_succ]
    have hnbP : ∀ e2 ∈ beam.flatMap (expandEntry cands budget),
        e2.ssum = lsum e2.sel f := by
      intro e2 he2
      rw [List.mem_flatMap] at he2
      obtain ⟨e, he, hexp⟩ := he2
      obtain ⟨cand, hcand, _, _, rfl⟩ := expandEntry_mem cands budget e e2 hexp
      show e.ssum + cand.2.1 = lsum (e.sel ++ [cand.1]) f
      rw [lsum_append, hbeam e he, hc cand hcand, lsum_cons, lsum_nil]
      ring
    by_cases hempty : (beam.flatMap (expandEntry cands budget)).isEmpty
    · rw [if_pos hempty]
      exact hbest
    · rw [if_neg hempty]
      refine ih _ _ ?_ ?_
      · intro e he
        refine hnbP e ?_
        have h1 := List.mem_of_mem_take he
        rwa [List.mem_insertionSort] at h1
      · rcases foldl_best_shape (beam.flatMap (expandEntry cands budget)) best with h | h
        · rw [h]
          exact hbest
        · exact hnbP _ h

theorem mem_beamCandidates_score (score : Table A B) (cost : CTable A B) :
    ∀ cand ∈ beamCandidates score cost, cand.2.1 = entQ score cand.1.1 cand.1.2 := by
  intro cand hcand
  unfold beamCandidates at hcand
  rw [List.mem_insertionSort, List.mem_filterMap] at hcand
  obtain ⟨x, hx, hmap⟩ := hcand
  rw [List.mem_flatMap] at hx
  obtain ⟨a, _, hx2⟩ := hx
  rw [List.mem_map] at hx2
  obtain ⟨b, _, rfl⟩ := hx2
  cases hv : score.entry a b with
  | none =>
    rw [show ((a, b), score.entry a b, cost.entry a b).2.1 = score.entry a b from rfl,
      hv] at hmap
    simp at hmap
  | some w =>
    rw [show ((a, b), score.entry a b, cost.entry a b).2.1 = score.entry a b from rfl,
      hv] at hmap
    rw [← Option.some.inj hmap]
    show w = entQ score a b
    unfold entQ
    rw [hv]
    rfl

theorem beam_scalar_cases [DecidableEq A] [DecidableEq B] (score : Table A B)
    (cost : Option (CTable A B)) (budget : WithTop ℚ) (bw : ℕ) (mi : Option ℕ) :
    (beam_search_pair_selection score cost budget bw mi).2 =
        lsum (beam_search_pair_selection score cost budget bw mi).1
          (fun ab => entQ score ab.1 ab.2) ∨
      beam_search_pair_selection score cost budget bw mi =
        greedy_select_under_budget score
          (some (cost.getD ⟨score.rows, score.cols, fun _ _ => 1⟩)) budget := by
  by_cases h : (beamTrackedBest score (cost.getD ⟨score.rows, score.cols, fun _ _ => 1⟩)
      budget bw mi).ssum ≤ 0
  · right
    show (if (beamTrackedBest score (cost.getD ⟨score.rows, score.cols, fun _ _ => 1⟩)
        budget bw mi).ssum ≤ 0 then
        greedy_select_under_budget score
          (some (cost.getD ⟨score.rows, score.cols, fun _ _ => 1⟩)) budget
      else _) = _
    rw [if_pos h]
  · left
    show (if (beamTrackedBest score (cost.getD ⟨score.rows, score.cols, fun _ _ => 1⟩)
          budget bw mi).ssum ≤ 0 then
        greedy_select_under_budget score
          (some (cost.getD ⟨score.rows, score.cols, fun _ _ => 1⟩)) budget
      else
        ((beamTrackedBest score (cost.getD ⟨score.rows, score.cols, fun _ _ => 1⟩)
            budget bw mi).sel,
          (beamTrackedBest score (cost.getD ⟨score.rows, score.cols, fun _ _ => 1⟩)
            budget bw mi).ssum)).2 =
      lsum (if (beamTrackedBest score (cost.getD ⟨score.rows, score.cols, fun _ _ => 1⟩)
          budget bw mi).ssum ≤ 0 then
        greedy_select_under_budget score
          (some (cost.getD ⟨score.rows, score.cols, fun _ _ => 1⟩)) budget
      else
        ((beamTrackedBest score (cost.getD ⟨score.rows, score.cols, fun _ _ => 1⟩)
            budget bw mi).sel,
          (beamTrackedBest score (cost.getD ⟨score.rows, score.cols, fun _ _ => 1⟩)
            budget bw mi).ssum)).1 (fun ab => entQ score ab.1 ab.2)
    rw [if_neg h]
    show (beamTrackedBest score (cost.getD ⟨score.rows, score.cols, fun _ _ => 1⟩)
        budget bw mi).ssum = _
    unfold beamTrackedBest
    refine beamLoop_scalar _ budget bw _
      (mem_beamCandidates_score score _) _ _ _ ?_ ?_
    · intro e he
      rw [List.mem_singleton.1 he]
      exact (lsum_nil _).symm
    · exact (lsum_nil _).symm

/-- Claim C4 (amended): all three selectors return an ordered selection and a
scalar, but only `greedy_select_under_budget` returns the selection's total
cost; `exhaustive_best_k` returns the selection's total *score*, and
`beam_search_pair_selection` returns its selection's total score except when
it falls back wholesale to the greedy strategy's result. -/
theorem selector_outputs_spec [DecidableEq A] [DecidableEq B] (score : Table A B)
    (cost : Option (CTable A B)) (budget : WithTop ℚ) (k bw : ℕ) (mi : Option ℕ) :
    ((greedy_select_under_budget score cost budget).2 =
      lsum (greedy_select_under_budget score cost budget).1
        (fun ab =>
          effCost (cost.getD ⟨score.rows, score.cols, fun _ _ => 1⟩) ab.1 ab.2)) ∧
    ((exhaustive_best_k score cost k budget).2 =
      lsum (exhaustive_best_k score cost k budget).1
        (fun ab => entQ score ab.1 ab.2)) ∧
    ((beam_search_pair_selection score cost budget bw mi).2 =
        lsum (beam_search_pair_selection score cost budget bw mi).1
          (fun ab => entQ score ab.1 ab.2) ∨
      beam_search_pair_selection score cost budget bw mi =
        greedy_select_under_budget score
          (some (cost.getD ⟨score.rows, score.cols, fun _ _ => 1⟩)) budget) :=
  ⟨greedy_scalar_is_cost score cost budget,
    exhaustive_scalar_is_score score cost k budget,
    beam_scalar_cases score cost budget bw mi⟩

/-- Counterexample to claim C4 as stated: on a one-cell board with score `5`
and cost `2`, `exhaustive_best_k` selects the cell and returns `5` — the
selection's total score — while the selection's total cost is `2`. -/
theorem exhaustive_scalar_counterexample :
    exhaustive_best_k score4 (some cost4) 1 (⊤ : WithTop ℚ) =
      ([(0, 0)], combScore [((0, 0), 5, 2)]) ∧
    combScore [((0, 0), 5, 2)] = 5 ∧
    cost4.entry 0 0 = 2 ∧ (5 : ℚ) ≠ 2 := by
  refine ⟨?_, ?_, rfl, by norm_num⟩
  · unfold exhaustive_best_k
    have h1 : combinations 1 (exhaustiveFlat score4 (some cost4)) =
        [[((0, 0), (5 : ℚ), (2 : ℚ))]] := rfl
    rw [h1, List.foldl_cons, List.foldl_nil]
    have hstep : exhaustiveStep (⊤ : WithTop ℚ) none [((0, 0), (5 : ℚ), (2 : ℚ))] =
        some ([(0, 0)], combScore [((0, 0), 5, 2)]) := by
      unfold exhaustiveStep
      rw [if_pos le_top]
      rfl
    rw [hstep]
  · show ([(5 : ℚ)]).sum = 5
    norm_num

/-! ### Beam search across generations (claim C8) -/

theorem expandEntry_mem_iff [DecidableEq A] [DecidableEq B]
    (cands : List ((A × B) × ℚ × ℚ)) (budget : WithTop ℚ) (e e2 : BeamEntry A B) :
    e2 ∈ expandEntry cands budget e ↔
      ∃ cand ∈ cands, cand.1 ∉ e.sel ∧
        ((e.csum + cand.2.2 : ℚ) : WithTop ℚ) ≤ budget ∧
        e2 = ⟨e.sel ++ [cand.1], e.ssum + cand.2.1, e.csum + cand.2.2⟩ := by
  constructor
  · exact expandEntry_mem cands budget e e2
  · rintro ⟨cand, hcand, h1, h2, rfl⟩
    unfold expandEntry
    rw [List.mem_filterMap]
    exact ⟨cand, hcand, by rw [if_neg h1, if_pos h2]⟩

theorem beamBestUpd_ge :
    ∀ (l : List (BeamEntry A B)) (best : BeamEntry A B),
      best.ssum ≤ (beamBestUpd best l).ssum ∧
        ∀ e ∈ l, e.ssum ≤ (beamBestUpd best l).ssum := by
  intro l
  induction l with
  | nil =>
    intro best
    exact ⟨le_refl _, fun e he => absurd he (List.not_mem_nil e)⟩
  | cons x l ih =>
    intro best
    rw [beamBestUpd_cons]
    by_cases h : best.ssum < x.ssum
    · rw [if_pos h]
      obtain ⟨h1, h2⟩ := ih x
      refine ⟨le_trans (le_of_lt h) h1, fun e he => ?_⟩
      rcases List.mem_cons.1 he with rfl | he
      · exact h1
      · exact h2 e he
    · rw [if_neg h]
      obtain ⟨h1, h2⟩ := ih best
      refine ⟨h1, fun e he => ?_⟩
      rcases List.mem_cons.1 he with rfl | he
      · exact le_trans (not_lt.1 h) h1
      · exact h2 e he

theorem beamGens_succ [DecidableEq A] [DecidableEq B]
    (cands : List ((A × B) × ℚ × ℚ)) (budget : WithTop ℚ) (bw n : ℕ)
    (beam : List (BeamEntry A B)) :
    beamGens cands budget bw (n + 1) beam =
      if (beam.flatMap (expandEntry cands budget)).isEmpty then []
      else
        beam.flatMap (expandEntry cands budget) ::
          beamGens cands budget bw n
            (((beam.flatMap (expandEntry cands budget)).insertionSort
              (byKey fun e => (-e.ssum, 0))).take bw) := rfl

theorem beamLoop_tracks_best [DecidableEq A] [DecidableEq B]
    (cands : List ((A × B) × ℚ × ℚ)) (budget : WithTop ℚ) (bw : ℕ) :
    ∀ (n : ℕ) (beam : List (BeamEntry A B)) (best : BeamEntry A B),
      (beamLoop cands budget bw n beam best = best ∨
        ∃ g ∈ beamGens cands budget bw n beam,
          beamLoop cands budget bw n beam best ∈ g) ∧
      best.ssum ≤ (beamLoop cands budget bw n beam best).ssum ∧
      ∀ g ∈ beamGens cands budget bw n beam, ∀ e ∈ g,
        e.ssum ≤ (beamLoop cands budget bw n beam best).ssum := by
  intro n
  induction n with
  | zero =>
    intro beam best
    exact ⟨Or.inl rfl, le_refl _, fun g hg => absurd hg (List.not_mem_nil g)⟩
  | succ n ih =>
    intro beam best
    rw [beamLoop_succ, beamGens_succ]
    by_cases hempty : (beam.flatMap (expandEntry cands budget)).isEmpty
    · rw [if_pos hempty, if_pos hempty]
      exact ⟨Or.inl rfl, le_refl _, fun g hg => absurd hg (List.not_mem_nil g)⟩
    · rw [if_neg hempty, if_neg hempty]
      obtain ⟨hshape, hge, hgens⟩ := ih
        (((beam.flatMap (expandEntry cands budget)).insertionSort
          (byKey fun e => (-e.ssum, 0))).take bw)
        (beamBestUpd best (beam.flatMap (expandEntry cands budget)))
      obtain ⟨hbu1, hbu2⟩ := beamBestUpd_ge (beam.flatMap (expandEntry cands budget)) best
      refine ⟨?_, le_trans hbu1 hge, ?_⟩
      · rcases hshape with h | ⟨g, hg, hmem⟩
        · rcases foldl_best_shape (beam.flatMap (expandEntry cands budget)) best with
            h2 | h2
          · exact Or.inl (h.trans h2)
          · exact Or.inr ⟨beam.flatMap (expandEntry cands budget),
              List.mem_cons_self _ _, by rw [h]; exact h2⟩
        · exact Or.inr ⟨g, List.mem_cons_of_mem _ hg, hmem⟩
      · intro g hg e he
        rcases List.mem_cons.1 hg with rfl | hg
        · exact le_trans (hbu2 e he) hge
        · exact hgens g hg e he

theorem beam_truncation (bw : ℕ) (l : List (BeamEntry A B)) :
    ((l.insertionSort (byKey fun e => (-e.ssum, 0))).take bw).length ≤ bw ∧
    (l.insertionSort (byKey fun e => (-e.ssum, 0))).take bw ++
        (l.insertionSort (byKey fun e => (-e.ssum, 0))).drop bw =
      l.insertionSort (byKey fun e => (-e.ssum, 0)) ∧
    (l.insertionSort (byKey fun e => (-e.ssum, 0))).Perm l ∧
    ∀ x ∈ (l.insertionSort (byKey fun e => (-e.ssum, 0))).take bw,
      ∀ y ∈ (l.insertionSort (byKey fun e => (-e.ssum, 0))).drop bw,
        y.ssum ≤ x.ssum := by
  refine ⟨List.length_take_le _ _, List.take_append_drop _ _,
    List.perm_insertionSort _ _, ?_⟩
  have hs : (l.insertionSort (byKey fun e => (-e.ssum, 0))).Sorted
      (byKey fun e => (-e.ssum, 0)) := List.sorted_insertionSort _ _
  have hp : List.Pairwise (byKey fun e => (-e.ssum, 0))
      ((l.insertionSort (byKey fun e => (-e.ssum, 0))).take bw ++
        (l.insertionSort (byKey fun e => (-e.ssum, 0))).drop bw) := by
    rw [List.take_append_drop]
    exact hs
  intro x hx y hy
  have hr : -x.ssum < -y.ssum ∨ (-x.ssum = -y.ssum ∧ (0 : ℚ) ≤ 0) :=
    (List.pairwise_append.1 hp).2.2 x hx y hy
  rcases hr with h | ⟨h, _⟩
  · exact le_of_lt (neg_lt_neg_iff.1 h)
  · exact le_of_eq (neg_inj.1 h).symm

/-- Claim C8: the beam search expands each retained partial selection by
every not-yet-selected candidate whose addition keeps the cumulative cost
within budget, keeps at most `beam_width` partial selections per generation
(taken from the top of the generation sorted by descending cumulative
score), returns the single best entry seen across all generations (the
initial empty entry, or a member of some generation, dominating every
generated entry's score), branches on whether the tracked best score is
positive, and falls back to the greedy strategy's result exactly when no
generated selection ever has a positive score. -/
theorem beam_search_tracked_best_spec [DecidableEq A] [DecidableEq B]
    (score : Table A B) (cost : Option (CTable A B)) (budget : WithTop ℚ)
    (bw : ℕ) (mi : Option ℕ) :
    (∀ (e e2 : BeamEntry A B),
      e2 ∈ expandEntry
          (beamCandidates score (cost.getD ⟨score.rows, score.cols, fun _ _ => 1⟩))
          budget e ↔
        ∃ cand ∈ beamCandidates score
            (cost.getD ⟨score.rows, score.cols, fun _ _ => 1⟩),
          cand.1 ∉ e.sel ∧ ((e.csum + cand.2.2 : ℚ) : WithTop ℚ) ≤ budget ∧
          e2 = ⟨e.sel ++ [cand.1], e.ssum + cand.2.1, e.csum + cand.2.2⟩) ∧
    (∀ (l : List (BeamEntry A B)),
      ((l.insertionSort (byKey fun e => (-e.ssum, 0))).take bw).length ≤ bw ∧
      (l.insertionSort (byKey fun e => (-e.ssum, 0))).Perm l ∧
      ∀ x ∈ (l.insertionSort (byKey fun e => (-e.ssum, 0))).take bw,
        ∀ y ∈ (l.insertionSort (byKey fun e => (-e.ssum, 0))).drop bw,
          y.ssum ≤ x.ssum) ∧
    ((beamTrackedBest score (cost.getD ⟨score.rows, score.cols, fun _ _ => 1⟩)
          budget bw mi = ⟨[], 0, 0⟩ ∨
        ∃ g ∈ beamGens
            (beamCandidates score (cost.getD ⟨score.rows, score.cols, fun _ _ => 1⟩))
            budget bw
            (mi.getD (beamCandidates score
              (cost.getD ⟨score.rows, score.cols, fun _ _ => 1⟩)).length)
            [⟨[], 0, 0⟩],
          beamTrackedBest score (cost.getD ⟨score.rows, score.cols, fun _ _ => 1⟩)
            budget bw mi ∈ g) ∧
      ∀ g ∈ beamGens
          (beamCandidates score (cost.getD ⟨score.rows, score.cols, fun _ _ => 1⟩))
          budget bw
          (mi.getD (beamCandidates score
            (cost.getD ⟨score.rows, score.cols, fun _ _ => 1⟩)).length)
          [⟨[], 0, 0⟩],
        ∀ e ∈ g,
          e.ssum ≤ (beamTrackedBest score
            (cost.getD ⟨score.rows, score.cols, fun _ _ => 1⟩) budget bw mi).ssum) ∧
    (beam_search_pair_selection score cost budget bw mi =
      if (beamTrackedBest score (cost.getD ⟨score.rows, score.cols, fun _ _ => 1⟩)
          budget bw mi).ssum ≤ 0 then
        greedy_select_under_budget score
          (some (cost.getD ⟨score.rows, score.cols, fun _ _ => 1⟩)) budget
      else
        ((beamTrackedBest score (cost.getD ⟨score.rows, score.cols, fun _ _ => 1⟩)
            budget bw mi).sel,
          (beamTrackedBest score (cost.getD ⟨score.rows, score.cols, fun _ _ => 1⟩)
            budget bw mi).ssum)) ∧
    ((beamTrackedBest score (cost.getD ⟨score.rows, score.cols, fun _ _ => 1⟩)
          budget bw mi).ssum ≤ 0 ↔
      ∀ g ∈ beamGens
          (beamCandidates score (cost.getD ⟨score.rows, score.cols, fun _ _ => 1⟩))
          budget bw
          (mi.getD (beamCandidates score
            (cost.getD ⟨score.rows, score.cols, fun _ _ => 1⟩)).length)
          [⟨[], 0, 0⟩],
        ∀ e ∈ g, e.ssum ≤ 0) := by
  have htr : beamTrackedBest score
      (cost.getD ⟨score.rows, score.cols, fun _ _ => 1⟩) budget bw mi =
      beamLoop
        (beamCandidates score (cost.getD ⟨score.rows, score.cols, fun _ _ => 1⟩))
        budget bw
        (mi.getD (beamCandidates score
          (cost.getD ⟨score.rows, score.cols, fun _ _ => 1⟩)).length)
        [⟨[], 0, 0⟩] ⟨[], 0, 0⟩ := rfl
  obtain ⟨hshape, hge, hgens⟩ := beamLoop_tracks_best
    (beamCandidates score (cost.getD ⟨score.rows, score.cols, fun _ _ => 1⟩))
    budget bw
    (mi.getD (beamCandidates score
      (cost.getD ⟨score.rows, score.cols, fun _ _ => 1⟩)).length)
    [⟨[], 0, 0⟩] ⟨[], 0, 0⟩
  refine ⟨expandEntry_mem_iff _ budget, ?_, ⟨?_, ?_⟩, rfl, ?_, ?_⟩
  · intro l
    obtain ⟨h1, _, h3, h4⟩ := beam_truncation bw l
    exact ⟨h1, h3, h4⟩
  · rw [htr]
    exact hshape
  · intro g hg e he
    rw [htr]
    exact hgens g hg e he
  · intro h0 g hg e he
    rw [htr] at h0
    exact le_trans (hgens g hg e he) h0
  · intro hall
    rw [htr]
    rcases hshape with heq | ⟨g, hg, hmem⟩
    · rw [heq]
    · exact hall g hg _ hmem

end Factors
